import Mathlib

/-!
Verification development for the coreference-chain reference-error detector
(`src/error_detection/coref_chain_detector.py` and `src/error_detection/detector.py`).

The Python code is shallowly embedded: constituency parse trees become an
inductive `Tree`; the phrase extractor (`recursive_np_vp_search` and helpers),
the phrase aligner (`match_np_bo_vp`, here split into extraction and `align`),
the chain annotator (the two coupling loops of `run_detection`), and the
consistency checker (`check_chain_link_oneway`) become Lean functions.
External library calls (CoreNLP annotation, the rouge-2 F similarity) are
parameters of the embedding: annotations are explicit input structures and the
similarity is an arbitrary function on the two predicate strings.
Python exceptions (numpy argmax over an empty axis, indexing `child[0]` of a
childless node) are modelled with `Option`.
-/

namespace RefErr

/-- A constituency parse-tree node: a label (`value` in the protobuf) and an
ordered list of children (empty for terminal tokens). -/
inductive Tree where
  | node (value : String) (child : List Tree)

/-- The label of a node (`node.value` in the Python code). -/
def Tree.value : Tree → String
  | .node v _ => v

/-- The children of a node (`node.child`). -/
def Tree.child : Tree → List Tree
  | .node _ cs => cs

mutual

/-- Number of nodes of a tree; used as a termination measure. -/
def Tree.size : Tree → Nat
  | .node _ cs => 1 + Tree.sizeList cs

/-- Total number of nodes of a list of trees. -/
def Tree.sizeList : List Tree → Nat
  | [] => 0
  | c :: cs => Tree.size c + Tree.sizeList cs

end

theorem Tree.size_node (v : String) (cs : List Tree) :
    (Tree.node v cs).size = 1 + Tree.sizeList cs := rfl

theorem Tree.size_pos (t : Tree) : 0 < t.size := by
  cases t with
  | node v cs => rw [Tree.size_node]; omega

theorem Tree.sizeList_of_mem {c : Tree} {cs : List Tree} (h : c ∈ cs) :
    c.size ≤ Tree.sizeList cs := by
  induction cs with
  | nil => cases h
  | cons d ds ih =>
    cases h with
    | head => simp only [Tree.sizeList]; omega
    | tail _ h2 =>
      have := ih h2
      simp only [Tree.sizeList]
      omega

mutual

/-- `CorefChainDetector.parse_tree_string(node, end_i)`: recover the surface
string of a subtree (terminal labels joined, each followed by a space) and
advance the running token index by the number of terminals. -/
def parse_tree_string : Tree → Nat → String × Nat
  | .node v [], end_i => (v ++ " ", end_i + 1)
  | .node _ (c :: cs), end_i => parse_tree_string_list (c :: cs) end_i

/-- The loop over `node.child` inside `parse_tree_string`. -/
def parse_tree_string_list : List Tree → Nat → String × Nat
  | [], end_i => ("", end_i)
  | c :: cs, end_i =>
    let p := parse_tree_string c end_i
    let q := parse_tree_string_list cs p.2
    (p.1 ++ q.1, q.2)

end

/-- The scan over a node's children in `_recursive_np_vp_search`: the Python
`for` loop reassigns on every hit, so the LAST child carrying the label wins. -/
def last_child_with (v : String) (cs : List Tree) : Option Tree :=
  cs.foldl (fun acc c => if c.value = v then some c else acc) none

theorem last_child_with_foldl_mem {v : String} {c : Tree} :
    ∀ (cs : List Tree) (acc : Option Tree),
      cs.foldl (fun acc c => if c.value = v then some c else acc) acc = some c →
      c ∈ cs ∨ acc = some c := by
  intro cs
  induction cs with
  | nil => intro acc h; right; exact h
  | cons d ds ih =>
    intro acc h
    rcases ih _ h with hin | heq
    · left; exact List.mem_cons_of_mem _ hin
    · have heq2 : (if d.value = v then some d else acc) = some c := heq
      by_cases hd : d.value = v
      · rw [if_pos hd, Option.some.injEq] at heq2
        left
        rw [← heq2]
        exact List.mem_cons_self _ _
      · rw [if_neg hd] at heq2
        right
        exact heq2

theorem last_child_with_mem {v : String} {cs : List Tree} {c : Tree}
    (h : last_child_with v cs = some c) : c ∈ cs := by
  rcases last_child_with_foldl_mem cs none h with hin | habs
  · exact hin
  · cases habs

mutual

/-- `CorefChainDetector._recursive_np_vp_search(node, start_i)`: find the first
(pre-order) node whose direct children include an NP child and a VP child and
return that (NP, VP) pair together with the running token index; terminals
advance the index by one. -/
def rnvs : Tree → Nat → Option (Tree × Tree) × Nat
  | .node _ [], start_i => (none, start_i + 1)
  | .node _ (c :: cs), start_i =>
    match last_child_with "NP" (c :: cs), last_child_with "VP" (c :: cs) with
    | some np, some vp => (some (np, vp), start_i)
    | _, _ => rnvs_list (c :: cs) start_i

/-- The recursive loop over children inside `_recursive_np_vp_search`, threading
the running token index and returning on the first found pair. -/
def rnvs_list : List Tree → Nat → Option (Tree × Tree) × Nat
  | [], start_i => (none, start_i)
  | c :: cs, start_i =>
    match rnvs c start_i with
    | (some p, j) => (some p, j)
    | (none, j) => rnvs_list cs j

end

theorem rnvs_list_exists {np vp : Tree} :
    ∀ (ds : List Tree) (i : Nat) {j : Nat},
      (∀ d ∈ ds, ∀ (i2 : Nat) {j2 : Nat},
        rnvs d i2 = (some (np, vp), j2) → vp.size < d.size) →
      rnvs_list ds i = (some (np, vp), j) → ∃ d ∈ ds, vp.size < d.size := by
  intro ds
  induction ds with
  | nil => intro i j _ h; simp [rnvs_list] at h
  | cons c cs ih =>
    intro i j hP h
    rw [rnvs_list] at h
    rcases h1 : rnvs c i with ⟨o, j1⟩
    rcases o with _ | p
    · rw [h1] at h
      simp only at h
      obtain ⟨d, hd, hlt⟩ :=
        ih j1 (fun d hd => hP d (List.mem_cons_of_mem _ hd)) h
      exact ⟨d, List.mem_cons_of_mem _ hd, hlt⟩
    · rw [h1] at h
      simp only [Prod.mk.injEq, Option.some.injEq] at h
      obtain ⟨hp, hj⟩ := h
      rw [hp] at h1
      exact ⟨c, List.mem_cons_self _ _, hP c (List.mem_cons_self _ _) i h1⟩

theorem rnvs_size_bounded : ∀ (n : Nat) (t : Tree), t.size ≤ n →
    ∀ (i : Nat) {np vp : Tree} {j : Nat},
      rnvs t i = (some (np, vp), j) → vp.size < t.size := by
  intro n
  induction n with
  | zero =>
    intro t ht
    have := Tree.size_pos t
    omega
  | succ n ih =>
    intro t ht i np vp j h
    cases t with
    | node v cs =>
      cases cs with
      | nil => simp [rnvs] at h
      | cons c cs2 =>
        rw [rnvs] at h
        rcases h1 : last_child_with "NP" (c :: cs2) with _ | np2 <;> rw [h1] at h <;>
          rcases h2 : last_child_with "VP" (c :: cs2) with _ | vp2 <;> rw [h2] at h
        case node.cons.some.some =>
          simp only [Prod.mk.injEq, Option.some.injEq] at h
          obtain ⟨⟨hnp, hvp⟩, hij⟩ := h
          have hmem : vp ∈ c :: cs2 := by
            rw [← hvp]; exact last_child_with_mem h2
          have := Tree.sizeList_of_mem hmem
          rw [Tree.size_node]; omega
        all_goals {
          have hsz : Tree.sizeList (c :: cs2) ≤ n := by
            rw [Tree.size_node] at ht; omega
          have hP : ∀ d ∈ c :: cs2, ∀ (i2 : Nat) {j2 : Nat},
              rnvs d i2 = (some (np, vp), j2) → vp.size < d.size := by
            intro d hd i2 j2 hr
            have hdn : d.size ≤ n :=
              le_trans (Tree.sizeList_of_mem hd) hsz
            exact ih d hdn i2 hr
          obtain ⟨d, hd, hlt⟩ := rnvs_list_exists (c :: cs2) i hP h
          have := Tree.sizeList_of_mem hd
          rw [Tree.size_node]
          omega }

theorem rnvs_size {t : Tree} {i : Nat} {np vp : Tree} {j : Nat}
    (h : rnvs t i = (some (np, vp), j)) : vp.size < t.size :=
  rnvs_size_bounded t.size t le_rfl i h

/-- One entry of the list built by `recursive_np_vp_search`: the dict with keys
NP, VP, NP_string, NP_start_i, NP_end_i, VP_start_i, VP_string, VP_end_i. -/
structure PhraseDict where
  NP : Tree
  VP : Tree
  NP_string : String
  NP_start_i : Nat
  NP_end_i : Nat
  VP_start_i : Nat
  VP_string : String
  VP_end_i : Nat

instance : Inhabited PhraseDict :=
  ⟨{ NP := .node "" [], VP := .node "" [], NP_string := "", NP_start_i := 0,
     NP_end_i := 0, VP_start_i := 0, VP_string := "", VP_end_i := 0 }⟩

/-- The `while node_pair is not None` loop of
`CorefChainDetector.recursive_np_vp_search`: each found (NP, VP) pair yields a
dict (NP bounds computed via `parse_tree_string`, `VP_start_i = NP_end_i`),
then the search recurses into the predicate child only.  The VP string and end
index, filled in by the trailing `for` loop in the Python code, are computed
here at construction; the resulting dicts coincide. -/
def np_vp_chain (t : Tree) (start_i : Nat) : List PhraseDict :=
  match h : rnvs t start_i with
  | (none, _) => []
  | (some (np, vp), np_start) =>
    let pnp := parse_tree_string np np_start
    let pvp := parse_tree_string vp pnp.2
    { NP := np, VP := vp, NP_string := pnp.1, NP_start_i := np_start, NP_end_i := pnp.2,
      VP_start_i := pnp.2, VP_string := pvp.1, VP_end_i := pvp.2 } :: np_vp_chain vp pnp.2
termination_by t.size
decreasing_by exact rnvs_size h

/-- `CorefChainDetector.recursive_np_vp_search(node)`: the full extraction for
one sentence tree, starting the token index at 0. -/
def recursive_np_vp_search (t : Tree) : List PhraseDict :=
  np_vp_chain t 0

theorem np_vp_chain_none {t : Tree} {i j : Nat} (h : rnvs t i = (none, j)) :
    np_vp_chain t i = [] := by
  rw [np_vp_chain]
  split
  · rfl
  · rename_i np vp np_start h2
    rw [h] at h2
    cases h2

theorem np_vp_chain_some {t : Tree} {i j : Nat} {np vp : Tree}
    (h : rnvs t i = (some (np, vp), j)) :
    np_vp_chain t i =
      { NP := np, VP := vp, NP_string := (parse_tree_string np j).1, NP_start_i := j,
        NP_end_i := (parse_tree_string np j).2, VP_start_i := (parse_tree_string np j).2,
        VP_string := (parse_tree_string vp (parse_tree_string np j).2).1,
        VP_end_i := (parse_tree_string vp (parse_tree_string np j).2).2 }
        :: np_vp_chain vp (parse_tree_string np j).2 := by
  rw [np_vp_chain]
  split
  · rename_i j2 h2
    rw [h] at h2
    cases h2
  · rename_i np2 vp2 np_start2 h2
    rw [h] at h2
    simp only [Prod.mk.injEq, Option.some.injEq] at h2
    obtain ⟨⟨hnp, hvp⟩, hj⟩ := h2
    rw [hnp, hvp, hj]

/-- The dictionary lookup used by `check_chain_link_oneway`; entries are
prepended on first sight, and keys are unique because an entry is only added
when the key is absent. -/
def cclo_go : List (Option Nat × Option Nat) → Nat → List (Nat × Nat) → List Nat
  | [], _, _ => []
  | (a, b) :: rest, i, m =>
    match a, b with
    | some x, some y =>
      match List.lookup x m with
      | none => cclo_go rest (i + 1) ((x, y) :: m)
      | some z => if z ≠ y then i :: cclo_go rest (i + 1) m else cclo_go rest (i + 1) m
    | _, _ => cclo_go rest (i + 1) m

/-- `CorefChainDetector.check_chain_link_oneway(chain_ids, other_chain_ids)`:
walk the two parallel chain-id lists; when both entries are set, the first
occurrence of a base-side id records the other-side id as its expected partner,
and any later occurrence whose partner differs appends its index.  The Python
loop runs over `range(len(chain_ids))` indexing both lists, which for
equal-length lists is exactly the walk over their zip. -/
def check_chain_link_oneway (chain_ids other_chain_ids : List (Option Nat)) : List Nat :=
  cclo_go (chain_ids.zip other_chain_ids) 0 []

/-- One update of the first-seen map of `check_chain_link_oneway`: when both
ids are set and the base id is new, record the partner. -/
def cclo_step (m : List (Nat × Nat)) : Option Nat × Option Nat → List (Nat × Nat)
  | (some x, some y) => if (List.lookup x m).isNone then (x, y) :: m else m
  | _ => m

/-- The first-seen map after processing a prefix of the zipped id lists. -/
def mAfter (m : List (Nat × Nat)) (pre : List (Option Nat × Option Nat)) : List (Nat × Nat) :=
  pre.foldl cclo_step m

/-- Position `d` of the zipped list is reported by the checker started with
map `m`: both ids set, the base id already mapped, and the mapped partner
differs. -/
def violAt (m : List (Nat × Nat)) (L : List (Option Nat × Option Nat)) (d : Nat) : Prop :=
  ∃ x y z, L[d]? = some (some x, some y) ∧
    List.lookup x (mAfter m (L.take d)) = some z ∧ z ≠ y

theorem mAfter_cons (m : List (Nat × Nat)) (p : Option Nat × Option Nat)
    (pre : List (Option Nat × Option Nat)) :
    mAfter m (p :: pre) = mAfter (cclo_step m p) pre := rfl

theorem violAt_succ (m : List (Nat × Nat)) (p : Option Nat × Option Nat)
    (rest : List (Option Nat × Option Nat)) (d : Nat) :
    violAt m (p :: rest) (d + 1) ↔ violAt (cclo_step m p) rest d := by
  simp only [violAt, List.getElem?_cons_succ, List.take_succ_cons, mAfter_cons]

theorem cclo_go_mem_iff :
    ∀ (L : List (Option Nat × Option Nat)) (i : Nat) (m : List (Nat × Nat)) (k : Nat),
      k ∈ cclo_go L i m ↔ ∃ d, d < L.length ∧ k = i + d ∧ violAt m L d := by
  intro L
  induction L with
  | nil =>
    intro i m k
    simp [cclo_go]
  | cons p rest ih =>
    intro i m k
    obtain ⟨a, b⟩ := p
    have hsucc := violAt_succ m (a, b) rest
    rcases a with _ | x <;> rcases b with _ | y
    case none.none | none.some | some.none =>
      simp only [cclo_go]
      rw [ih]
      constructor
      · rintro ⟨d, hd, hk, hv⟩
        refine ⟨d + 1, by simp; omega, by omega, (hsucc d).mpr ?_⟩
        exact hv
      · rintro ⟨d, hd, hk, hv⟩
        cases d with
        | zero => simp [violAt] at hv
        | succ d =>
          have hv2 := (hsucc d).mp hv
          exact ⟨d, by simp at hd; omega, by omega, hv2⟩
    case some.some =>
      rcases hl : List.lookup x m with _ | z
      · have hcc : cclo_go ((some x, some y) :: rest) i m =
            cclo_go rest (i + 1) ((x, y) :: m) := by
          simp only [cclo_go, hl]
        have hstep : cclo_step m (some x, some y) = (x, y) :: m := by
          simp [cclo_step, hl]
        rw [hcc, ih]
        constructor
        · rintro ⟨d, hd, hk, hv⟩
          refine ⟨d + 1, by simp; omega, by omega, (hsucc d).mpr ?_⟩
          rwa [hstep]
        · rintro ⟨d, hd, hk, hv⟩
          cases d with
          | zero =>
            exfalso
            obtain ⟨x2, y2, z2, h0, hl2, _⟩ := hv
            simp only [List.getElem?_cons_zero, Option.some.injEq, Prod.mk.injEq] at h0
            obtain ⟨hx2, hy2⟩ := h0
            simp only [List.take_zero, mAfter, List.foldl_nil] at hl2
            rw [hx2] at hl
            rw [hl] at hl2
            cases hl2
          | succ d =>
            have hv2 := (hsucc d).mp hv
            rw [hstep] at hv2
            exact ⟨d, by simp at hd; omega, by omega, hv2⟩
      · have hstep : cclo_step m (some x, some y) = m := by
          simp [cclo_step, hl]
        by_cases hzy : z = y
        · have hcc : cclo_go ((some x, some y) :: rest) i m = cclo_go rest (i + 1) m := by
            simp only [cclo_go, hl]
            rw [if_neg]
            simp [hzy]
          rw [hcc, ih]
          constructor
          · rintro ⟨d, hd, hk, hv⟩
            refine ⟨d + 1, by simp; omega, by omega, (hsucc d).mpr ?_⟩
            rwa [hstep]
          · rintro ⟨d, hd, hk, hv⟩
            cases d with
            | zero =>
              exfalso
              obtain ⟨x2, y2, z2, h0, hl2, hne⟩ := hv
              simp only [List.getElem?_cons_zero, Option.some.injEq, Prod.mk.injEq] at h0
              obtain ⟨hx2, hy2⟩ := h0
              simp only [List.take_zero, mAfter, List.foldl_nil] at hl2
              rw [hx2] at hl
              rw [hl, Option.some.injEq] at hl2
              rw [← hl2, hzy] at hne
              exact hne hy2
            | succ d =>
              have hv2 := (hsucc d).mp hv
              rw [hstep] at hv2
              exact ⟨d, by simp at hd; omega, by omega, hv2⟩
        · have hcc : cclo_go ((some x, some y) :: rest) i m =
              i :: cclo_go rest (i + 1) m := by
            simp only [cclo_go, hl]
            rw [if_pos hzy]
          rw [hcc]
          simp only [List.mem_cons, ih]
          constructor
          · rintro (hk | ⟨d, hd, hk, hv⟩)
            · refine ⟨0, by simp, by omega, ?_⟩
              exact ⟨x, y, z, by simp, by simpa [mAfter] using hl, hzy⟩
            · refine ⟨d + 1, by simp; omega, by omega, (hsucc d).mpr ?_⟩
              rwa [hstep]
          · rintro ⟨d, hd, hk, hv⟩
            cases d with
            | zero => left; omega
            | succ d =>
              right
              have hv2 := (hsucc d).mp hv
              rw [hstep] at hv2
              exact ⟨d, by simp at hd; omega, by omega, hv2⟩

/-- The first position of the zipped id lists at which the base id is `x` and
both ids are set; this is the position whose partner the checker records. -/
def firstWithKey (x : Nat) : List (Option Nat × Option Nat) → Option Nat
  | [] => none
  | (a, b) :: rest =>
    if a = some x ∧ b.isSome then some 0 else (firstWithKey x rest).map (· + 1)

theorem lookup_cons_ne {x k : Nat} {v : Nat} (m : List (Nat × Nat)) (h : x ≠ k) :
    List.lookup x ((k, v) :: m) = List.lookup x m := by
  rw [List.lookup_cons]
  have hb : (x == k) = false := beq_eq_false_iff_ne.mpr h
  rw [hb]

theorem lookup_mAfter_some {x z : Nat} :
    ∀ (pre : List (Option Nat × Option Nat)) (m : List (Nat × Nat)),
      List.lookup x m = some z → List.lookup x (mAfter m pre) = some z := by
  intro pre
  induction pre with
  | nil => intro m h; exact h
  | cons p rest ih =>
    intro m h
    rw [mAfter_cons]
    apply ih
    obtain ⟨a, b⟩ := p
    rcases a with _ | x2 <;> rcases b with _ | y2 <;> simp only [cclo_step]
    · exact h
    · exact h
    · exact h
    · rcases hl : List.lookup x2 m with _ | w
      · have hne : x ≠ x2 := by
          intro he
          rw [← he, h] at hl
          cases hl
        show List.lookup x ((x2, y2) :: m) = some z
        rw [lookup_cons_ne _ hne]
        exact h
      · exact h

theorem lookup_mAfter_none {x : Nat} :
    ∀ (pre : List (Option Nat × Option Nat)) (m : List (Nat × Nat)),
      List.lookup x m = none →
      List.lookup x (mAfter m pre) =
        (firstWithKey x pre).bind (fun j => (pre[j]?).bind (fun p => p.2)) := by
  intro pre
  induction pre with
  | nil => intro m h; exact h
  | cons p rest ih =>
    intro m h
    obtain ⟨a, b⟩ := p
    rw [mAfter_cons]
    by_cases hk : a = some x ∧ b.isSome
    · obtain ⟨ha, hb⟩ := hk
      rcases b with _ | y
      · cases hb
      · rw [ha]
        have hstep2 : cclo_step m (some x, some y) = (x, y) :: m := by
          simp [cclo_step, h]
        rw [hstep2]
        have hl2 : List.lookup x ((x, y) :: m) = some y := by
          rw [List.lookup_cons]
          simp
        rw [lookup_mAfter_some rest _ hl2]
        have hf : firstWithKey x ((some x, some y) :: rest) = some 0 := by
          simp [firstWithKey]
        rw [hf]
        simp
    · have hstep : List.lookup x (cclo_step m (a, b)) = none := by
        rcases a with _ | x2 <;> rcases b with _ | y2 <;> simp only [cclo_step]
        · exact h
        · exact h
        · exact h
        · have hne : x2 ≠ x := by
            intro he
            apply hk
            constructor
            · rw [he]
            · simp
          rcases hl : List.lookup x2 m with _ | w
          · show List.lookup x ((x2, y2) :: m) = none
            rw [lookup_cons_ne _ (Ne.symm hne)]
            exact h
          · exact h
      rw [ih _ hstep]
      have hf : firstWithKey x ((a, b) :: rest) = (firstWithKey x rest).map (· + 1) := by
        simp only [firstWithKey, if_neg hk]
      rw [hf]
      rcases firstWithKey x rest with _ | j
      · simp
      · simp

theorem firstWithKey_take {x : Nat} :
    ∀ (L : List (Option Nat × Option Nat)) (d j : Nat),
      firstWithKey x (L.take d) = some j ↔ firstWithKey x L = some j ∧ j < d := by
  intro L
  induction L with
  | nil =>
    intro d j
    simp [firstWithKey]
  | cons p rest ih =>
    intro d j
    cases d with
    | zero =>
      simp [firstWithKey]
    | succ d =>
      obtain ⟨a, b⟩ := p
      rw [List.take_succ_cons]
      by_cases hk : a = some x ∧ b.isSome
      · simp only [firstWithKey, if_pos hk]
        constructor
        · intro hj
          rw [Option.some.injEq] at hj
          exact ⟨by rw [← hj], by omega⟩
        · rintro ⟨hj, _⟩
          exact hj
      · simp only [firstWithKey, if_neg hk]
        constructor
        · intro hj
          rcases hf : firstWithKey x (rest.take d) with _ | j2
          · rw [hf] at hj; cases hj
          · rw [hf] at hj
            simp only [Option.map_some'] at hj
            rw [Option.some.injEq] at hj
            obtain ⟨hj2, hlt⟩ := (ih d j2).mp hf
            rw [hj2]
            simp only [Option.map_some']
            exact ⟨by rw [← hj], by omega⟩
        · rintro ⟨hj, hlt⟩
          rcases hf : firstWithKey x rest with _ | j2
          · rw [hf] at hj; cases hj
          · rw [hf] at hj
            simp only [Option.map_some'] at hj
            rw [Option.some.injEq] at hj
            have : firstWithKey x (rest.take d) = some j2 :=
              (ih d j2).mpr ⟨hf, by omega⟩
            rw [this]
            simp only [Option.map_some']
            rw [← hj]

theorem firstWithKey_getElem {x : Nat} :
    ∀ (L : List (Option Nat × Option Nat)) (j : Nat),
      firstWithKey x L = some j → ∃ y, L[j]? = some (some x, some y) := by
  intro L
  induction L with
  | nil => intro j h; cases h
  | cons p rest ih =>
    intro j h
    obtain ⟨a, b⟩ := p
    by_cases hk : a = some x ∧ b.isSome
    · simp only [firstWithKey, if_pos hk] at h
      rw [Option.some.injEq] at h
      obtain ⟨ha, hb⟩ := hk
      rcases b with _ | y
      · cases hb
      · exact ⟨y, by rw [← h, ha]; simp⟩
    · simp only [firstWithKey, if_neg hk] at h
      rcases hf : firstWithKey x rest with _ | j2
      · rw [hf] at h; cases h
      · rw [hf] at h
        simp only [Option.map_some'] at h
        rw [Option.some.injEq] at h
        obtain ⟨y, hy⟩ := ih j2 hf
        exact ⟨y, by rw [← h]; simpa using hy⟩

/-- Full characterization of membership in the checker output, in terms of the
first occurrence (with both sides set) of the base-side id. -/
theorem check_mem_iff (A B : List (Option Nat)) (k : Nat) :
    k ∈ check_chain_link_oneway A B ↔
      ∃ x y z j, (A.zip B)[k]? = some (some x, some y) ∧
        firstWithKey x (A.zip B) = some j ∧ j < k ∧
        (A.zip B)[j]? = some (some x, some z) ∧ z ≠ y := by
  rw [check_chain_link_oneway, cclo_go_mem_iff]
  constructor
  · rintro ⟨d, hd, hk, x, y, z, hget, hlook, hne⟩
    rw [lookup_mAfter_none _ [] rfl] at hlook
    rcases hf : firstWithKey x ((A.zip B).take d) with _ | j
    · rw [hf] at hlook; cases hlook
    · rw [hf] at hlook
      simp only [Option.some_bind] at hlook
      obtain ⟨hfL, hjd⟩ := (firstWithKey_take _ d j).mp hf
      obtain ⟨y2, hy2⟩ := firstWithKey_getElem _ j hfL
      have hgetj : ((A.zip B).take d)[j]? = (A.zip B)[j]? := by
        rw [List.getElem?_take]
        rw [if_pos hjd]
      rw [hgetj, hy2] at hlook
      simp only [Option.some_bind] at hlook
      rw [Option.some.injEq] at hlook
      refine ⟨x, y, z, j, by rw [hk]; simpa using hget, hfL, by omega, ?_, hne⟩
      rw [hy2, ← hlook]
  · rintro ⟨x, y, z, j, hget, hfL, hjk, hgetj, hne⟩
    have hklen : k < (A.zip B).length := by
      by_contra hge
      rw [List.getElem?_eq_none (by omega)] at hget
      cases hget
    refine ⟨k, hklen, by omega, x, y, z, hget, ?_, hne⟩
    rw [lookup_mAfter_none _ [] rfl]
    have hf : firstWithKey x ((A.zip B).take k) = some j :=
      (firstWithKey_take _ k j).mpr ⟨hfL, hjk⟩
    rw [hf]
    simp only [Option.some_bind]
    have hgetj2 : ((A.zip B).take k)[j]? = (A.zip B)[j]? := by
      rw [List.getElem?_take, if_pos hjk]
    rw [hgetj2, hgetj]
    simp

theorem cclo_go_lower (L : List (Option Nat × Option Nat)) (i : Nat) (m : List (Nat × Nat))
    (k : Nat) (hk : k ∈ cclo_go L i m) : i ≤ k := by
  rw [cclo_go_mem_iff] at hk
  obtain ⟨d, _, hq, _⟩ := hk
  omega

theorem cclo_go_sorted :
    ∀ (L : List (Option Nat × Option Nat)) (i : Nat) (m : List (Nat × Nat)),
      List.Pairwise (· < ·) (cclo_go L i m) := by
  intro L
  induction L with
  | nil => intro i m; simp [cclo_go]
  | cons p rest ih =>
    intro i m
    obtain ⟨a, b⟩ := p
    rcases a with _ | x <;> rcases b with _ | y
    case none.none | none.some | some.none =>
      simp only [cclo_go]
      exact ih (i + 1) m
    case some.some =>
      rcases hl : List.lookup x m with _ | z
      · simp only [cclo_go, hl]
        exact ih (i + 1) _
      · by_cases hzy : z = y
        · simp only [cclo_go, hl]
          rw [if_neg (by simp [hzy])]
          exact ih (i + 1) m
        · simp only [cclo_go, hl]
          rw [if_pos hzy]
          constructor
          · intro k hk
            have := cclo_go_lower rest (i + 1) m k hk
            omega
          · exact ih (i + 1) m

/-- **C1**: for equal-length chain-id lists, `check_chain_link_oneway A B`
reports exactly those positions `k` where both ids are set, the base id `A k`
first occurred (with both sides set) at some earlier position `j`, and the
partner recorded at `j` differs from `B k`; positions with an unset id on
either side are skipped.  In particular `check([1,1,2],[5,6,5]) = [1]` and
`check([5,6,5],[1,1,2]) = [2]`. -/
theorem claim_C1 :
    (∀ (A B : List (Option Nat)), A.length = B.length → ∀ (k : Nat),
      k ∈ check_chain_link_oneway A B ↔
        ∃ x y z j, (A.zip B)[k]? = some (some x, some y) ∧
          firstWithKey x (A.zip B) = some j ∧ j < k ∧
          (A.zip B)[j]? = some (some x, some z) ∧ z ≠ y)
    ∧ check_chain_link_oneway [some 1, some 1, some 2] [some 5, some 6, some 5] = [1]
    ∧ check_chain_link_oneway [some 5, some 6, some 5] [some 1, some 1, some 2] = [2] :=
  ⟨fun A B _ k => check_mem_iff A B k, by decide, by decide⟩

theorem claim_C1_witness :
    ([some 1, some 1, some 2] : List (Option Nat)).length =
      ([some 5, some 6, some 5] : List (Option Nat)).length
    ∧ (1 ∈ check_chain_link_oneway [some 1, some 1, some 2] [some 5, some 6, some 5] ↔
        ∃ x y z j,
          (([some 1, some 1, some 2] : List (Option Nat)).zip
            ([some 5, some 6, some 5] : List (Option Nat)))[1]? = some (some x, some y) ∧
          firstWithKey x (([some 1, some 1, some 2] : List (Option Nat)).zip
            ([some 5, some 6, some 5] : List (Option Nat))) = some j ∧ j < 1 ∧
          (([some 1, some 1, some 2] : List (Option Nat)).zip
            ([some 5, some 6, some 5] : List (Option Nat)))[j]? = some (some x, some z) ∧
          z ≠ y) :=
  ⟨rfl, claim_C1.1 [some 1, some 1, some 2] [some 5, some 6, some 5] rfl 1⟩

/-- **C10**: for equal-length chain-id lists the reported index list is
strictly increasing, every reported index is in bounds, and the position of
the first (both-sides-set) occurrence of a base id is never itself reported. -/
theorem claim_C10 (A B : List (Option Nat)) (h : A.length = B.length) :
    List.Pairwise (· < ·) (check_chain_link_oneway A B)
    ∧ (∀ k ∈ check_chain_link_oneway A B, k < A.length)
    ∧ (∀ x j, firstWithKey x (A.zip B) = some j →
        j ∉ check_chain_link_oneway A B) := by
  refine ⟨cclo_go_sorted _ 0 [], ?_, ?_⟩
  · intro k hk
    obtain ⟨x, y, z, j, hget, _⟩ := (check_mem_iff A B k).mp hk
    have hlt : k < (A.zip B).length := by
      by_contra hge
      rw [List.getElem?_eq_none (by omega)] at hget
      cases hget
    rw [List.length_zip] at hlt
    omega
  · intro x j hf hmem
    obtain ⟨x2, y2, z2, j2, hget, hf2, hj2, hgetj2, hne⟩ := (check_mem_iff A B j).mp hmem
    obtain ⟨y3, hy3⟩ := firstWithKey_getElem _ j hf
    rw [hy3] at hget
    rw [Option.some.injEq, Prod.mk.injEq, Option.some.injEq] at hget
    obtain ⟨hx, _⟩ := hget
    rw [← hx] at hf2
    rw [hf] at hf2
    rw [Option.some.injEq] at hf2
    omega

theorem claim_C10_witness :
    ([some 1, some 1, some 2] : List (Option Nat)).length =
      ([some 5, some 6, some 5] : List (Option Nat)).length
    ∧ (List.Pairwise (· < ·)
        (check_chain_link_oneway [some 1, some 1, some 2] [some 5, some 6, some 5])
      ∧ (∀ k ∈ check_chain_link_oneway [some 1, some 1, some 2] [some 5, some 6, some 5],
          k < ([some 1, some 1, some 2] : List (Option Nat)).length)
      ∧ (∀ x j, firstWithKey x (([some 1, some 1, some 2] : List (Option Nat)).zip
            ([some 5, some 6, some 5] : List (Option Nat))) = some j →
          j ∉ check_chain_link_oneway [some 1, some 1, some 2] [some 5, some 6, some 5])) :=
  ⟨rfl, claim_C10 [some 1, some 1, some 2] [some 5, some 6, some 5] rfl⟩

/-- Model of `np.argmax` over one column of the similarity matrix: the first
index attaining the maximum (numpy keeps the running best and replaces it only
on a strictly greater value). -/
def stableArgmax : List ℚ → Nat
  | [] => 0
  | a :: rest =>
    match rest with
    | [] => 0
    | _ :: _ =>
      if rest.getD (stableArgmax rest) 0 > a then stableArgmax rest + 1 else 0

theorem stableArgmax_lt_length : ∀ (l : List ℚ), l ≠ [] → stableArgmax l < l.length := by
  intro l
  induction l with
  | nil => intro h; cases h rfl
  | cons a rest ih =>
    intro _
    cases rest with
    | nil => simp [stableArgmax]
    | cons b rest2 =>
      rw [stableArgmax]
      by_cases hgt : (b :: rest2).getD (stableArgmax (b :: rest2)) 0 > a
      · rw [if_pos hgt]
        have := ih (by simp)
        simp only [List.length_cons] at this ⊢
        omega
      · rw [if_neg hgt]
        simp

theorem stableArgmax_ge : ∀ (l : List ℚ), ∀ q ∈ l, q ≤ l.getD (stableArgmax l) 0 := by
  intro l
  induction l with
  | nil => intro q hq; cases hq
  | cons a rest ih =>
    intro q hq
    cases rest with
    | nil =>
      rw [List.mem_singleton] at hq
      rw [hq]
      simp [stableArgmax]
    | cons b rest2 =>
      rw [stableArgmax]
      by_cases hgt : (b :: rest2).getD (stableArgmax (b :: rest2)) 0 > a
      · rw [if_pos hgt]
        rw [List.getD_cons_succ]
        rcases List.mem_cons.mp hq with hqa | hqr
        · rw [hqa]; exact le_of_lt hgt
        · exact ih q hqr
      · rw [if_neg hgt]
        rw [List.getD_cons_zero]
        rcases List.mem_cons.mp hq with hqa | hqr
        · rw [hqa]
        · exact le_trans (ih q hqr) (le_of_not_lt hgt)

theorem stableArgmax_first : ∀ (l : List ℚ), ∀ i < stableArgmax l,
    l.getD i 0 < l.getD (stableArgmax l) 0 := by
  intro l
  induction l with
  | nil => intro i hi; simp [stableArgmax] at hi
  | cons a rest ih =>
    intro i hi
    cases rest with
    | nil => simp [stableArgmax] at hi
    | cons b rest2 =>
      rw [stableArgmax] at hi ⊢
      by_cases hgt : (b :: rest2).getD (stableArgmax (b :: rest2)) 0 > a
      · rw [if_pos hgt] at hi ⊢
        rw [List.getD_cons_succ]
        cases i with
        | zero => rw [List.getD_cons_zero]; exact hgt
        | succ i2 =>
          rw [List.getD_cons_succ]
          exact ih i2 (by omega)
      · rw [if_neg hgt] at hi
        omega

theorem getD_mem_of_lt : ∀ (l : List ℚ) (k : Nat), k < l.length → l.getD k 0 ∈ l := by
  intro l
  induction l with
  | nil => intro k hk; simp at hk
  | cons a rest ih =>
    intro k hk
    cases k with
    | zero => rw [List.getD_cons_zero]; exact List.mem_cons_self _ _
    | succ k2 =>
      rw [List.getD_cons_succ]
      exact List.mem_cons_of_mem _ (ih k2 (by simp at hk; omega))

/-- Spec-side definition, following the specification text: the maximum
similarity score of a column ("select the source phrase pair with the maximum
score in that column"). -/
def maxScore : List ℚ → ℚ
  | [] => 0
  | a :: rest =>
    match rest with
    | [] => a
    | _ :: _ => max a (maxScore rest)

theorem le_maxScore : ∀ (l : List ℚ), ∀ q ∈ l, q ≤ maxScore l := by
  intro l
  induction l with
  | nil => intro q hq; cases hq
  | cons a rest ih =>
    intro q hq
    cases rest with
    | nil =>
      rw [List.mem_singleton] at hq
      rw [hq, maxScore]
    | cons b rest2 =>
      rw [maxScore]
      rcases List.mem_cons.mp hq with hqa | hqr
      · rw [hqa]; exact le_max_left _ _
      · exact le_trans (ih q hqr) (le_max_right _ _)

theorem maxScore_mem : ∀ (l : List ℚ), l ≠ [] → maxScore l ∈ l := by
  intro l
  induction l with
  | nil => intro h; cases h rfl
  | cons a rest ih =>
    intro _
    cases rest with
    | nil => rw [maxScore]; exact List.mem_cons_self _ _
    | cons b rest2 =>
      rw [maxScore]
      rcases le_total a (maxScore (b :: rest2)) with hle | hle
      · rw [max_eq_right hle]
        exact List.mem_cons_of_mem _ (ih (by simp))
      · rw [max_eq_left hle]
        exact List.mem_cons_self _ _

/-- Spec-side definition: the lowest (first-encountered) row index attaining
the column maximum ("ties broken by first-encountered row, i.e. stable
argmax"). -/
def leastMaxIdx (l : List ℚ) : Nat := l.indexOf (maxScore l)

theorem indexOf_eq_of_first : ∀ (l : List ℚ) (v : ℚ) (k : Nat), k < l.length →
    l.getD k 0 = v → (∀ i < k, l.getD i 0 ≠ v) → l.indexOf v = k := by
  intro l
  induction l with
  | nil => intro v k hk; simp at hk
  | cons a rest ih =>
    intro v k hk hv hfirst
    cases k with
    | zero =>
      rw [List.getD_cons_zero] at hv
      rw [List.indexOf_cons]
      rw [hv]
      simp
    | succ k2 =>
      have ha : a ≠ v := by
        have := hfirst 0 (by omega)
        rwa [List.getD_cons_zero] at this
      rw [List.indexOf_cons]
      have hb : (a == v) = false := beq_eq_false_iff_ne.mpr ha
      rw [hb]
      simp only [cond_false]
      rw [List.getD_cons_succ] at hv
      have : rest.indexOf v = k2 := by
        apply ih v k2 (by simp at hk; omega) hv
        intro i hi
        have := hfirst (i + 1) (by omega)
        rwa [List.getD_cons_succ] at this
      omega

theorem stableArgmax_eq_leastMaxIdx (l : List ℚ) (hl : l ≠ []) :
    stableArgmax l = leastMaxIdx l ∧ l.getD (stableArgmax l) 0 = maxScore l := by
  have hlt := stableArgmax_lt_length l hl
  have hmem : l.getD (stableArgmax l) 0 ∈ l := getD_mem_of_lt l _ hlt
  have hvmax : l.getD (stableArgmax l) 0 = maxScore l := by
    apply le_antisymm
    · exact le_maxScore l _ hmem
    · exact stableArgmax_ge l _ (maxScore_mem l hl)
  refine ⟨?_, hvmax⟩
  rw [leastMaxIdx]
  symm
  apply indexOf_eq_of_first l (maxScore l) (stableArgmax l) hlt hvmax
  intro i hi
  have := stableArgmax_first l i hi
  rw [hvmax] at this
  exact ne_of_lt this

/-- `CorefChainDetector.ParseTreeMatch`: one aligned (source, summary) phrase
pair with the similarity score of the match; the chain-annotation fields start
out as `None` and are filled in by the coupling loops of `run_detection`. -/
structure ParseTreeMatch where
  src_sent_index : Nat
  sum_sent_index : Nat
  src_phrase : PhraseDict
  sum_phrase : PhraseDict
  match_rouge_score : ℚ
  src_chain_id : Option Nat := none
  sum_chain_id : Option Nat := none
  src_chain_representative : Option String := none
  sum_chain_representative : Option String := none

/-- One column of the `rouge_scores` matrix of `match_np_bo_vp`: the scores of
a fixed summary phrase against every source phrase.  The Python code computes
`rouge.get_scores(sum_phrase["VP_string"], src_phrase["VP_string"])`; the rouge
call is external and appears here as the parameter `score` (every dict built by
`recursive_np_vp_search` carries a `VP_string`, so the `"VP_string" in ...`
guard of the matrix loop is always taken). -/
def scoreColumn (score : String → String → ℚ) (src_phrases : List PhraseDict)
    (sumP : PhraseDict) : List ℚ :=
  src_phrases.map (fun sp => score sumP.VP_string sp.VP_string)

/-- The selection step of `CorefChainDetector.match_np_bo_vp` (lines 195-213):
`np.argmax(rouge_scores, axis=0)` followed by the comprehension keeping the
summary phrase pairs whose best score reaches `min_match_score = 0.20`.
`np.argmax` raises `ValueError` whenever the reduction axis is empty - it
checks the axis length unconditionally, so this includes the 0x0 matrix -
i.e. exactly when there are no source phrases; that exception is modelled as
`none`. -/
def align (score : String → String → ℚ) (src_phrases : List PhraseDict)
    (src_sent_ids : List Nat) (sum_phrases : List PhraseDict)
    (sum_sent_ids : List Nat) : Option (List ParseTreeMatch) :=
  if src_phrases.isEmpty then none
  else some ((List.range sum_phrases.length).filterMap (fun j =>
    let sumP := sum_phrases.getD j default
    let col := scoreColumn score src_phrases sumP
    let b := stableArgmax col
    if (1 : ℚ)/5 ≤ col.getD b 0 then
      some { src_sent_index := src_sent_ids.getD b 0, sum_sent_index := sum_sent_ids.getD j 0,
             src_phrase := src_phrases.getD b default, sum_phrase := sumP,
             match_rouge_score := col.getD b 0 }
    else none))

/-- Spec-side aligner, following the specification text: one `AlignedPair` per
summary phrase pair whose maximum column score reaches the threshold 0.20
(inclusive), matched to the source phrase pair with the maximum score in that
column, ties broken by the lowest row index (`leastMaxIdx`/`maxScore`). -/
def spec_align (score : String → String → ℚ) (src_phrases : List PhraseDict)
    (src_sent_ids : List Nat) (sum_phrases : List PhraseDict)
    (sum_sent_ids : List Nat) : List ParseTreeMatch :=
  (List.range sum_phrases.length).filterMap (fun j =>
    let sumP := sum_phrases.getD j default
    let col := scoreColumn score src_phrases sumP
    let b := leastMaxIdx col
    if (1 : ℚ)/5 ≤ maxScore col then
      some { src_sent_index := src_sent_ids.getD b 0, sum_sent_index := sum_sent_ids.getD j 0,
             src_phrase := src_phrases.getD b default, sum_phrase := sumP,
             match_rouge_score := maxScore col }
    else none)

/-- **C2** (amended): provided the source phrase list is non-empty, the
aligner returns, and its output is exactly the spec-side selection: one
aligned pair per summary phrase pair whose best column score is at least 0.20
(inclusive), matched to the lowest-index source phrase pair attaining the
column maximum.  The two concrete conjuncts check the threshold boundary: a
single pair scoring exactly 1/5 is retained with that score, one scoring
19/100 is dropped.  (The original claim quantified over every pair of lists;
with an empty source list the program instead raises at `np.argmax` - 0x0
matrix included - and emits nothing: see the counterexample.) -/
theorem claim_C2 :
    (∀ (score : String → String → ℚ) (src_phrases : List PhraseDict)
      (src_sent_ids : List Nat) (sum_phrases : List PhraseDict)
      (sum_sent_ids : List Nat),
      src_phrases ≠ [] →
      align score src_phrases src_sent_ids sum_phrases sum_sent_ids =
        some (spec_align score src_phrases src_sent_ids sum_phrases sum_sent_ids))
    ∧ ((align (fun _ _ => (1 : ℚ)/5) [default] [0] [default] [0]).map
        (fun l => l.map (fun m => m.match_rouge_score))) = some [(1 : ℚ)/5]
    ∧ ((align (fun _ _ => (19 : ℚ)/100) [default] [0] [default] [0]).map
        (fun l => l.map (fun m => m.match_rouge_score))) = some [] := by
  refine ⟨?_, ?_, ?_⟩
  · intro score src_phrases src_sent_ids sum_phrases sum_sent_ids hsrc
    rw [align]
    rw [if_neg (by simp only [List.isEmpty_iff]; exact hsrc)]
    rw [Option.some.injEq, spec_align]
    apply List.filterMap_congr
    intro j hj
    have hcol : scoreColumn score src_phrases (sum_phrases.getD j default) ≠ [] := by
      rw [scoreColumn]
      intro he
      rw [List.map_eq_nil_iff] at he
      exact hsrc he
    obtain ⟨hidx, hval⟩ := stableArgmax_eq_leastMaxIdx _ hcol
    simp only [← hidx, ← hval]
  · norm_num [align, scoreColumn, stableArgmax, List.filterMap]
  · norm_num [align, scoreColumn, stableArgmax, List.filterMap]

theorem claim_C2_counterexample :
    align (fun _ _ => (1 : ℚ)) [] [] [default] [0] = none
    ∧ align (fun _ _ => (1 : ℚ)) [] [] [] [] = none :=
  ⟨rfl, rfl⟩

theorem claim_C2_witness :
    ([default] : List PhraseDict) ≠ []
    ∧ align (fun _ _ => (1 : ℚ)/5) [default] [0] [] [] =
        some (spec_align (fun _ _ => (1 : ℚ)/5) [default] [0] [] []) :=
  ⟨List.cons_ne_nil _ _,
    claim_C2.1 (fun _ _ => (1 : ℚ)/5) [default] [0] [] [] (List.cons_ne_nil _ _)⟩

/-- A coreference mention as resolved through `mentionsForCoref`. -/
structure Mention where
  sentNum : Nat
  startIndex : Nat
  headString : String

/-- A coreference chain: an id, the mention ids of its members, and the index
of the representative mention within the member list. -/
structure CorefChain where
  chainID : Nat
  mention : List Nat
  representative : Nat

/-- One annotated sentence: its constituency parse tree and its tokens. -/
structure Sentence where
  parseTree : Tree
  token : List String

/-- The part of an annotated CoreNLP document the detector reads.  The mention
table is total (`mentionsForCoref[id]`): the annotation provider guarantees
valid mention ids, so the Python list indexing never faults there. -/
structure Annotation where
  sentence : List Sentence
  corefChain : List CorefChain
  mentionsForCoref : Nat → Mention

/-- `CorefChainDetector.get_np_vp`: extraction for one sentence.  The Python
code indexes `sentence.parseTree.child[0]`, which raises on a childless root;
that exception is modelled as `none`. -/
def get_np_vp (s : Sentence) : Option (List PhraseDict) :=
  match s.parseTree.child with
  | [] => none
  | c :: _ => some (recursive_np_vp_search c)

/-- The per-sentence extraction loops of `match_np_bo_vp`: concatenated phrase
dicts plus the parallel sentence-index list (`len(phrase_dicts) * [i]`). -/
def extract_phrases : List Sentence → Nat → Option (List PhraseDict × List Nat)
  | [], _ => some ([], [])
  | s :: rest, i =>
    match get_np_vp s with
    | none => none
    | some ds =>
      match extract_phrases rest (i + 1) with
      | none => none
      | some (ps, ids) => some (ds ++ ps, List.replicate ds.length i ++ ids)

/-- `CorefChainDetector.match_np_bo_vp`: extract phrase pairs from both
documents (summary first, as in the code), then align them. -/
def match_np_bo_vp (score : String → String → ℚ) (src_ann sum_ann : Annotation) :
    Option (List ParseTreeMatch) :=
  match extract_phrases sum_ann.sentence 0, extract_phrases src_ann.sentence 0 with
  | some (sum_phrases, sum_ids), some (src_phrases, src_ids) =>
    align score src_phrases src_ids sum_phrases sum_ids
  | _, _ => none

/-- `CorefChainDetector.get_representative_string`: the head string of the
chain's representative mention (`chain.mention[chain.representative]` is valid
by the annotation contract, modelled with `getD`). -/
def get_representative_string (ann : Annotation) (c : CorefChain) : String :=
  (ann.mentionsForCoref (c.mention.getD c.representative 0)).headString

/-- The flattened (chain, mention) iteration order of one coupling loop of
`run_detection`: for each chain, for each of its mentions, the chain id, the
resolved mention, and the chain's representative string. -/
def chain_updates (ann : Annotation) : List (Nat × Mention × String) :=
  ann.corefChain.flatMap (fun c =>
    c.mention.map (fun mid =>
      (c.chainID, ann.mentionsForCoref mid, get_representative_string ann c)))

/-- The source-side coupling condition of `run_detection` (lines 53-54):
`mention.sentNum == match.src_sent_index and mention.startIndex ==
match.src_phrase["NP_start_i"]`. -/
def src_match_cond (u : Nat × Mention × String) (p : ParseTreeMatch) : Bool :=
  u.2.1.sentNum == p.src_sent_index && u.2.1.startIndex == p.src_phrase.NP_start_i

/-- The summary-side coupling condition of `run_detection` (lines 64-65). -/
def sum_match_cond (u : Nat × Mention × String) (p : ParseTreeMatch) : Bool :=
  u.2.1.sentNum == p.sum_sent_index && u.2.1.startIndex == p.sum_phrase.NP_start_i

/-- `set_src_chain_id` and `set_src_chain_representative` on a matching pair. -/
def apply_src_update (u : Nat × Mention × String) (p : ParseTreeMatch) : ParseTreeMatch :=
  if src_match_cond u p then
    { p with src_chain_id := some u.1, src_chain_representative := some u.2.2 }
  else p

/-- `set_sum_chain_id` and `set_sum_chain_representative` on a matching pair. -/
def apply_sum_update (u : Nat × Mention × String) (p : ParseTreeMatch) : ParseTreeMatch :=
  if sum_match_cond u p then
    { p with sum_chain_id := some u.1, sum_chain_representative := some u.2.2 }
  else p

/-- The source-side coupling loop of `run_detection` (lines 49-57): every
(chain, mention) update is applied, in iteration order, to every match whose
source subject address coincides with the mention. -/
def annotate_src (ann : Annotation) (ms : List ParseTreeMatch) : List ParseTreeMatch :=
  (chain_updates ann).foldl (fun ms u => ms.map (apply_src_update u)) ms

/-- The summary-side coupling loop of `run_detection` (lines 60-68). -/
def annotate_sum (ann : Annotation) (ms : List ParseTreeMatch) : List ParseTreeMatch :=
  (chain_updates ann).foldl (fun ms u => ms.map (apply_sum_update u)) ms

/-- The source-side coupling loop instrumented with a per-match counter of how
often `set_src_chain_id` is called on that match. -/
def annotate_src_counted (ann : Annotation) (ms : List ParseTreeMatch) :
    List (ParseTreeMatch × Nat) :=
  (chain_updates ann).foldl
    (fun ms u => ms.map (fun pn =>
      if src_match_cond u pn.1 then
        ({ pn.1 with src_chain_id := some u.1, src_chain_representative := some u.2.2 },
          pn.2 + 1)
      else pn))
    (ms.map (fun p => (p, 0)))

/-- The summary-side coupling loop instrumented with a per-match counter of how
often `set_sum_chain_id` is called on that match. -/
def annotate_sum_counted (ann : Annotation) (ms : List ParseTreeMatch) :
    List (ParseTreeMatch × Nat) :=
  (chain_updates ann).foldl
    (fun ms u => ms.map (fun pn =>
      if sum_match_cond u pn.1 then
        ({ pn.1 with sum_chain_id := some u.1, sum_chain_representative := some u.2.2 },
          pn.2 + 1)
      else pn))
    (ms.map (fun p => (p, 0)))

/-- The data of one error message of `run_detection`; the Python code renders
these fields into an f-string, which is log-output formatting only. -/
structure Message where
  src_chain_equal : Bool
  sum_sentence : String
  sum_referent : String
  sum_representative : Option String
  src_sentence : String
  src_referent : String
  src_representative : Option String
  vp_match_rouge_score : ℚ

/-- `DetectionResult` from `src/error_detection/detector.py`. -/
structure DetectionResult where
  src_sent_indices : List Nat
  sum_sent_indices : List Nat
  messages : List Message

/-- `DetectionResult.error_detected`: `len(self.src_sent_indices) > 0`. -/
def DetectionResult.error_detected (r : DetectionResult) : Bool :=
  decide (0 < r.src_sent_indices.length)

/-- One diagnostic print of `run_detection`, captured as data. -/
inductive LogEntry where
  | debugPhrases (dicts : List PhraseDict)
  | infoMatch (src_np : String) (src_id : Option Nat) (sum_np : String) (sum_id : Option Nat)
  | errorDetected (m : Message)
  | noError

/-- A default-initialized match; only used as the (never-taken) `getD`
fallback when indexing `parse_tree_matches[i_error]`, which is always in
bounds because the checker only reports indices below the match-list length. -/
def defaultPM : ParseTreeMatch :=
  { src_sent_index := 0, sum_sent_index := 0, src_phrase := default,
    sum_phrase := default, match_rouge_score := 0 }

/-- The message built for one reported error index (direction tag `true` for
the source-chain-equal direction of lines 88-97, `false` for lines 106-115).
The f-string indexes `summary[pm.sum_sent_index]` and
`src_annotation.sentence[pm.src_sent_index]`; either can raise `IndexError`
(the annotated summary may have more sentences than the caller-supplied
`summary` list), modelled as `none`. -/
def make_message (dir : Bool) (summary : List String) (src_ann : Annotation)
    (pm : ParseTreeMatch) : Option Message :=
  match summary[pm.sum_sent_index]?, src_ann.sentence[pm.src_sent_index]? with
  | some sum_sentence, some src_sentence =>
    some { src_chain_equal := dir,
           sum_sentence := sum_sentence,
           sum_referent := pm.sum_phrase.NP_string,
           sum_representative := pm.sum_chain_representative,
           src_sentence := String.intercalate " " src_sentence.token,
           src_referent := pm.src_phrase.NP_string,
           src_representative := pm.src_chain_representative,
           vp_match_rouge_score := pm.match_rouge_score }
  | _, _ => none

/-- One error-reporting loop of `run_detection` (lines 87-101 resp. 105-119):
for each reported index, build the message and append the sentence-index pair;
a failing message lookup aborts the run (`none`). -/
def build_findings (summary : List String) (src_ann : Annotation)
    (ms : List ParseTreeMatch) (dir : Bool) : List Nat → Option (List (Nat × Nat × Message))
  | [] => some []
  | i :: rest =>
    let pm := ms.getD i defaultPM
    match make_message dir summary src_ann pm with
    | none => none
    | some msg =>
      match build_findings summary src_ann ms dir rest with
      | none => none
      | some fs => some ((pm.src_sent_index, pm.sum_sent_index, msg) :: fs)

/-- Both error-reporting loops of `run_detection`: the source-chain-equal
direction first, then the summary-chain-equal direction, concatenated. -/
def collect_findings (summary : List String) (src_ann : Annotation)
    (ms : List ParseTreeMatch) : Option (List (Nat × Nat × Message)) :=
  match build_findings summary src_ann ms true
          (check_chain_link_oneway (ms.map (fun m => m.src_chain_id))
            (ms.map (fun m => m.sum_chain_id))),
        build_findings summary src_ann ms false
          (check_chain_link_oneway (ms.map (fun m => m.sum_chain_id))
            (ms.map (fun m => m.src_chain_id))) with
  | some f1, some f2 => some (f1 ++ f2)
  | _, _ => none

/-- The debug phrase dumps of `get_np_vp` at log level 2. -/
def debug_log (src_ann sum_ann : Annotation) : List LogEntry :=
  (sum_ann.sentence ++ src_ann.sentence).map
    (fun s => LogEntry.debugPhrases ((get_np_vp s).getD []))

/-- `CorefChainDetector.run_detection`, from the annotated documents onwards
(the `client.annotate` calls are the external annotation provider): match
phrases, couple chains on both sides, extract the two chain-id sequences, run
the checker in both directions, and collect the three parallel result lists.
Diagnostic printing is returned as a log alongside the result. -/
def run_detection (score : String → String → ℚ) (src_ann sum_ann : Annotation)
    (summary : List String) (log_level : Nat) :
    Option DetectionResult × List LogEntry :=
  match match_np_bo_vp score src_ann sum_ann with
  | none =>
    (none, if 2 ≤ log_level then debug_log src_ann sum_ann else [])
  | some ms0 =>
    let ms := annotate_sum sum_ann (annotate_src src_ann ms0)
    match collect_findings summary src_ann ms with
    | none =>
      ((none : Option DetectionResult),
        (if 2 ≤ log_level then debug_log src_ann sum_ann else [])
        ++ (if 1 ≤ log_level then
            ms.map (fun m => LogEntry.infoMatch m.src_phrase.NP_string m.src_chain_id
              m.sum_phrase.NP_string m.sum_chain_id)
          else []))
    | some findings =>
      let res : DetectionResult :=
        { src_sent_indices := findings.map (fun f => f.1),
          sum_sent_indices := findings.map (fun f => f.2.1),
          messages := findings.map (fun f => f.2.2) }
      let log :=
        (if 2 ≤ log_level then debug_log src_ann sum_ann else [])
        ++ (if 1 ≤ log_level then
            ms.map (fun m => LogEntry.infoMatch m.src_phrase.NP_string m.src_chain_id
              m.sum_phrase.NP_string m.sum_chain_id)
            ++ findings.map (fun f => LogEntry.errorDetected f.2.2)
            ++ (if res.error_detected then [] else [LogEntry.noError])
          else [])
      (some res, log)

theorem np_vp_chain_vp_start : ∀ (n : Nat) (t : Tree), t.size ≤ n → ∀ (i : Nat),
    ∀ d ∈ np_vp_chain t i, d.VP_start_i = d.NP_end_i := by
  intro n
  induction n with
  | zero =>
    intro t ht
    have := Tree.size_pos t
    omega
  | succ n ih =>
    intro t ht i d hd
    rcases hr : rnvs t i with ⟨o, j⟩
    rcases o with _ | p
    · rw [np_vp_chain_none hr] at hd
      cases hd
    · obtain ⟨np, vp⟩ := p
      rw [np_vp_chain_some hr] at hd
      rcases List.mem_cons.mp hd with hhead | htail
      · rw [hhead]
      · have hvp : vp.size ≤ n := by
          have := rnvs_size hr
          omega
        exact ih vp hvp _ d htail

/-- **C4**: every phrase pair produced by the extractor satisfies
`VP_start_i = NP_end_i`: the predicate starts exactly where the subject ends. -/
theorem claim_C4 (t : Tree) (d : PhraseDict) (h : d ∈ recursive_np_vp_search t) :
    d.VP_start_i = d.NP_end_i :=
  np_vp_chain_vp_start t.size t le_rfl 0 d h

/-- Example subject node used in concrete pipeline runs. -/
def georgeNP : Tree := Tree.node "NP" [Tree.node "George" []]

/-- Example subject node used in concrete pipeline runs. -/
def michaelNP : Tree := Tree.node "NP" [Tree.node "Michael" []]

/-- Example predicate node used in concrete pipeline runs. -/
def drivingVP : Tree := Tree.node "VP" [Tree.node "was" [], Tree.node "driving" []]

/-- The phrase dict the extractor produces for `S [georgeNP, drivingVP]`. -/
def georgeDict : PhraseDict :=
  { NP := georgeNP, VP := drivingVP, NP_string := "George ", NP_start_i := 0, NP_end_i := 1,
    VP_start_i := 1, VP_string := "was driving ", VP_end_i := 3 }

/-- The phrase dict the extractor produces for `S [michaelNP, drivingVP]`. -/
def michaelDict : PhraseDict :=
  { NP := michaelNP, VP := drivingVP, NP_string := "Michael ", NP_start_i := 0, NP_end_i := 1,
    VP_start_i := 1, VP_string := "was driving ", VP_end_i := 3 }

theorem extract_george :
    recursive_np_vp_search (Tree.node "S" [georgeNP, drivingVP]) = [georgeDict] := by
  have h1 : rnvs (Tree.node "S" [georgeNP, drivingVP]) 0 =
      (some (georgeNP, drivingVP), 0) := rfl
  have h2 : rnvs (Tree.node "VP" [Tree.node "was" [], Tree.node "driving" []]) 1 =
      (none, 3) := rfl
  rw [recursive_np_vp_search, np_vp_chain_some h1]
  norm_num [georgeNP, drivingVP, parse_tree_string, parse_tree_string_list]
  rw [np_vp_chain_none h2]
  norm_num [georgeDict, georgeNP, drivingVP]
  decide

theorem extract_michael :
    recursive_np_vp_search (Tree.node "S" [michaelNP, drivingVP]) = [michaelDict] := by
  have h1 : rnvs (Tree.node "S" [michaelNP, drivingVP]) 0 =
      (some (michaelNP, drivingVP), 0) := rfl
  have h2 : rnvs (Tree.node "VP" [Tree.node "was" [], Tree.node "driving" []]) 1 =
      (none, 3) := rfl
  rw [recursive_np_vp_search, np_vp_chain_some h1]
  norm_num [michaelNP, drivingVP, parse_tree_string, parse_tree_string_list]
  rw [np_vp_chain_none h2]
  norm_num [michaelDict, michaelNP, drivingVP]
  decide

theorem claim_C4_witness :
    georgeDict ∈ recursive_np_vp_search (Tree.node "S" [georgeNP, drivingVP])
    ∧ georgeDict.VP_start_i = georgeDict.NP_end_i := by
  have hm : georgeDict ∈ recursive_np_vp_search (Tree.node "S" [georgeNP, drivingVP]) := by
    rw [extract_george]
    exact List.mem_singleton.mpr rfl
  exact ⟨hm, claim_C4 _ _ hm⟩

/-- Whether a list of children contains one labelled `v`. -/
def has_child_labeled (v : String) : List Tree → Bool
  | [] => false
  | c :: cs => (c.value == v) || has_child_labeled v cs

mutual

/-- Whether some node of the subtree has both an NP-labelled and a VP-labelled
direct child: exactly the trees on which `_recursive_np_vp_search` can find a
pair. -/
def has_np_vp_split : Tree → Bool
  | .node _ cs =>
    (has_child_labeled "NP" cs && has_child_labeled "VP" cs) || any_np_vp_split cs

/-- `has_np_vp_split` over a list of subtrees. -/
def any_np_vp_split : List Tree → Bool
  | [] => false
  | c :: cs => has_np_vp_split c || any_np_vp_split cs

end

theorem last_child_with_value {v : String} {c : Tree} :
    ∀ (cs : List Tree) (acc : Option Tree),
      cs.foldl (fun acc c => if c.value = v then some c else acc) acc = some c →
      c.value = v ∨ acc = some c := by
  intro cs
  induction cs with
  | nil => intro acc h; right; exact h
  | cons d ds ih =>
    intro acc h
    rcases ih _ h with hv | heq
    · left; exact hv
    · have heq2 : (if d.value = v then some d else acc) = some c := heq
      by_cases hd : d.value = v
      · rw [if_pos hd, Option.some.injEq] at heq2
        left
        rw [← heq2]
        exact hd
      · rw [if_neg hd] at heq2
        right
        exact heq2

theorem has_child_labeled_of_mem {v : String} {c : Tree} :
    ∀ (cs : List Tree), c ∈ cs → c.value = v → has_child_labeled v cs = true := by
  intro cs
  induction cs with
  | nil => intro h; cases h
  | cons d ds ih =>
    intro hm hv
    rcases List.mem_cons.mp hm with hd | hds
    · rw [has_child_labeled, ← hd, hv]
      simp
    · rw [has_child_labeled, ih hds hv]
      simp

theorem has_child_labeled_of_last {v : String} {cs : List Tree} {c : Tree}
    (h : last_child_with v cs = some c) : has_child_labeled v cs = true := by
  have hmem := last_child_with_mem h
  rcases last_child_with_value cs none h with hv | habs
  · exact has_child_labeled_of_mem cs hmem hv
  · cases habs

theorem rnvs_list_none :
    ∀ (cs : List Tree) (i : Nat),
      (∀ c ∈ cs, ∀ (i2 : Nat), (rnvs c i2).1 = none) → (rnvs_list cs i).1 = none := by
  intro cs
  induction cs with
  | nil => intro i _; rfl
  | cons c cs2 ih =>
    intro i hP
    rw [rnvs_list]
    rcases hr : rnvs c i with ⟨o, j⟩
    have := hP c (List.mem_cons_self _ _) i
    rw [hr] at this
    simp only at this
    rw [this]
    exact ih j (fun c2 hc2 => hP c2 (List.mem_cons_of_mem _ hc2))

theorem any_np_vp_split_of_mem : ∀ (cs : List Tree) (c : Tree), c ∈ cs →
    has_np_vp_split c = true → any_np_vp_split cs = true := by
  intro cs
  induction cs with
  | nil => intro c h; cases h
  | cons d ds ih =>
    intro c hm hb
    rw [any_np_vp_split]
    rcases List.mem_cons.mp hm with hd | hds
    · rw [← hd, hb]; simp
    · rw [ih c hds hb]; simp

theorem rnvs_none_of_no_split : ∀ (n : Nat) (t : Tree), t.size ≤ n →
    has_np_vp_split t = false → ∀ (i : Nat), (rnvs t i).1 = none := by
  intro n
  induction n with
  | zero =>
    intro t ht
    have := Tree.size_pos t
    omega
  | succ n ih =>
    intro t ht hs i
    cases t with
    | node v cs =>
      cases cs with
      | nil => rfl
      | cons c cs2 =>
        rw [has_np_vp_split] at hs
        rw [Bool.or_eq_false_iff] at hs
        obtain ⟨hs1, hs2⟩ := hs
        rw [rnvs]
        rcases h1 : last_child_with "NP" (c :: cs2) with _ | np2 <;>
          rcases h2 : last_child_with "VP" (c :: cs2) with _ | vp2
        case some.some =>
          exfalso
          rw [has_child_labeled_of_last h1, has_child_labeled_of_last h2] at hs1
          cases hs1
        all_goals {
          apply rnvs_list_none
          intro c2 hc2 i2
          have hc2size : c2.size ≤ n := by
            have := Tree.sizeList_of_mem hc2
            rw [Tree.size_node] at ht
            omega
          have hc2split : has_np_vp_split c2 = false := by
            by_contra hb
            rw [Bool.not_eq_false] at hb
            rw [any_np_vp_split_of_mem _ _ hc2 hb] at hs2
            cases hs2
          exact ih c2 hc2size hc2split i2 }

theorem no_split_extract_empty (t : Tree) (h : has_np_vp_split t = false) :
    recursive_np_vp_search t = [] := by
  rcases hr : rnvs t 0 with ⟨o, j⟩
  have h0 := rnvs_none_of_no_split t.size t le_rfl h 0
  rw [hr] at h0
  simp only at h0
  rw [h0] at hr
  rw [recursive_np_vp_search]
  exact np_vp_chain_none hr

/-- **C7**: a sentence tree in which no node (at any depth) has both an
NP-labelled and a VP-labelled direct child yields an empty phrase-pair list. -/
theorem claim_C7 (t : Tree) (h : has_np_vp_split t = false) :
    recursive_np_vp_search t = [] :=
  no_split_extract_empty t h

theorem claim_C7_witness :
    has_np_vp_split (Tree.node "X" [Tree.node "w" []]) = false
    ∧ recursive_np_vp_search (Tree.node "X" [Tree.node "w" []]) = [] :=
  ⟨rfl, claim_C7 _ rfl⟩

/-- **C8**: the returned `DetectionResult` is the same for every log level; the
verbosity only affects the diagnostic log. -/
theorem claim_C8 (score : String → String → ℚ) (src_ann sum_ann : Annotation)
    (summary : List String) (l1 l2 : Nat) :
    (run_detection score src_ann sum_ann summary l1).1 =
      (run_detection score src_ann sum_ann summary l2).1 := by
  rcases h : match_np_bo_vp score src_ann sum_ann with _ | ms
  · simp only [run_detection, h]
  · simp only [run_detection, h]
    rcases hc : collect_findings summary src_ann
        (annotate_sum sum_ann (annotate_src src_ann ms)) with _ | fs <;>
      simp only [hc]

/-- **C9**: the three result lists of a successful `run_detection` are
parallel (equal lengths) and `error_detected` holds exactly when a finding was
produced, i.e. exactly when the lists are non-empty. -/
theorem claim_C9 (score : String → String → ℚ) (src_ann sum_ann : Annotation)
    (summary : List String) (lvl : Nat) (res : DetectionResult) (log : List LogEntry)
    (h : run_detection score src_ann sum_ann summary lvl = (some res, log)) :
    res.src_sent_indices.length = res.sum_sent_indices.length
    ∧ res.sum_sent_indices.length = res.messages.length
    ∧ (res.error_detected = true ↔ res.messages ≠ []) := by
  rcases hm : match_np_bo_vp score src_ann sum_ann with _ | ms
  · simp only [run_detection, hm] at h
    exact absurd (congrArg Prod.fst h) (by simp)
  · simp only [run_detection, hm] at h
    rcases hc : collect_findings summary src_ann
        (annotate_sum sum_ann (annotate_src src_ann ms)) with _ | fs
    · simp only [hc] at h
      exact absurd (congrArg Prod.fst h) (by simp)
    · simp only [hc] at h
      have h1 := congrArg Prod.fst h
      simp only at h1
      rw [Option.some.injEq] at h1
      rw [← h1]
      refine ⟨by simp, by simp, ?_⟩
      simp [DetectionResult.error_detected, List.map_eq_nil_iff, List.length_pos]

/-- The per-element effect of applying a sequence of coupling updates: each
update whose condition matches overwrites the element. -/
def apply_updates {υ π : Type} (cond : υ → π → Bool) (set : υ → π → π)
    (us : List υ) (p : π) : π :=
  us.foldl (fun p u => if cond u p then set u p else p) p

theorem foldmap_counted_eq {υ π : Type} (cond : υ → π → Bool) (set : υ → π → π)
    (hinv : ∀ u v p, cond u (set v p) = cond u p) :
    ∀ (us : List υ) (start : List (π × Nat)),
      us.foldl (fun ms u => ms.map (fun pn =>
          if cond u pn.1 then (set u pn.1, pn.2 + 1) else pn)) start
      = start.map (fun pn =>
          (apply_updates cond set us pn.1, pn.2 + us.countP (fun u => cond u pn.1))) := by
  intro us
  induction us with
  | nil =>
    intro start
    simp only [List.foldl_nil, apply_updates, List.countP_nil, Nat.add_zero]
    simp [Prod.mk.eta]
  | cons u us ih =>
    intro start
    rw [List.foldl_cons, ih, List.map_map]
    apply List.map_congr_left
    intro pn _
    simp only [Function.comp_apply]
    have hcnt : List.countP (fun v => cond v (set u pn.1)) us =
        List.countP (fun v => cond v pn.1) us :=
      List.countP_congr (fun v _ => by rw [hinv v u pn.1])
    by_cases hc : cond u pn.1
    · rw [if_pos hc]
      simp only [Prod.mk.injEq]
      constructor
      · conv_rhs => rw [apply_updates, List.foldl_cons]
        rw [if_pos hc]
        rfl
      · rw [List.countP_cons, if_pos hc, hcnt]
        omega
    · rw [if_neg hc]
      simp only [Prod.mk.injEq]
      constructor
      · conv_rhs => rw [apply_updates, List.foldl_cons]
        rw [if_neg hc]
        rfl
      · rw [List.countP_cons, if_neg hc]
        omega

theorem annotate_src_counted_eq (ann : Annotation) (ms : List ParseTreeMatch) :
    annotate_src_counted ann ms = ms.map (fun p =>
      (apply_updates src_match_cond
        (fun u p => { p with src_chain_id := some u.1,
                             src_chain_representative := some u.2.2 })
        (chain_updates ann) p,
       (chain_updates ann).countP (fun u => src_match_cond u p))) := by
  rw [annotate_src_counted]
  rw [foldmap_counted_eq src_match_cond
    (fun u p => { p with src_chain_id := some u.1,
                         src_chain_representative := some u.2.2 })
    (fun u v p => rfl) (chain_updates ann) (ms.map (fun p => (p, 0)))]
  rw [List.map_map]
  apply List.map_congr_left
  intro p _
  simp only [Function.comp_apply, Nat.zero_add]

theorem annotate_sum_counted_eq (ann : Annotation) (ms : List ParseTreeMatch) :
    annotate_sum_counted ann ms = ms.map (fun p =>
      (apply_updates sum_match_cond
        (fun u p => { p with sum_chain_id := some u.1,
                             sum_chain_representative := some u.2.2 })
        (chain_updates ann) p,
       (chain_updates ann).countP (fun u => sum_match_cond u p))) := by
  rw [annotate_sum_counted]
  rw [foldmap_counted_eq sum_match_cond
    (fun u p => { p with sum_chain_id := some u.1,
                         sum_chain_representative := some u.2.2 })
    (fun u v p => rfl) (chain_updates ann) (ms.map (fun p => (p, 0)))]
  rw [List.map_map]
  apply List.map_congr_left
  intro p _
  simp only [Function.comp_apply, Nat.zero_add]

theorem countP_le_one_of_addr {υ : Type} (addr : υ → Nat × Nat) (q : υ → Bool)
    (ap : Nat × Nat) (hq : ∀ u, q u = true ↔ addr u = ap) :
    ∀ us : List υ, (us.map addr).Nodup → us.countP q ≤ 1 := by
  intro us
  induction us with
  | nil => intro _; simp
  | cons u us ih =>
    intro hnd
    rw [List.map_cons, List.nodup_cons] at hnd
    obtain ⟨hnotin, hnd2⟩ := hnd
    rw [List.countP_cons]
    by_cases hc : q u = true
    · have ha := (hq u).mp hc
      have hz : us.countP q = 0 := by
        rw [List.countP_eq_zero]
        intro v hv hqv
        apply hnotin
        have hav := (hq v).mp hqv
        rw [List.mem_map]
        exact ⟨v, hv, by rw [hav, ha]⟩
      rw [hz, if_pos hc]
    · rw [if_neg hc]
      have := ih hnd2
      omega

/-- **C6** (amended): during chain annotation a pair's chain id on a given side
is written once per chain mention whose resolved (sentence, start) address
equals the pair's subject address; in particular it is written at most once
whenever no two chain mentions share a resolved address.  (The original claim,
at most one write unconditionally, fails when two mentions share an address:
see the counterexample.) -/
theorem claim_C6 (ann : Annotation) (ms : List ParseTreeMatch)
    (hnd : ((chain_updates ann).map (fun u => (u.2.1.sentNum, u.2.1.startIndex))).Nodup) :
    (∀ pn ∈ annotate_src_counted ann ms, pn.2 ≤ 1)
    ∧ (∀ pn ∈ annotate_sum_counted ann ms, pn.2 ≤ 1) := by
  constructor
  · intro pn hpn
    rw [annotate_src_counted_eq] at hpn
    rw [List.mem_map] at hpn
    obtain ⟨p, hp, hpe⟩ := hpn
    rw [← hpe]
    apply countP_le_one_of_addr (fun u => (u.2.1.sentNum, u.2.1.startIndex))
      _ (p.src_sent_index, p.src_phrase.NP_start_i) _ _ hnd
    intro u
    rw [src_match_cond]
    rw [Bool.and_eq_true, beq_iff_eq, beq_iff_eq, Prod.mk.injEq]
  · intro pn hpn
    rw [annotate_sum_counted_eq] at hpn
    rw [List.mem_map] at hpn
    obtain ⟨p, hp, hpe⟩ := hpn
    rw [← hpe]
    apply countP_le_one_of_addr (fun u => (u.2.1.sentNum, u.2.1.startIndex))
      _ (p.sum_sent_index, p.sum_phrase.NP_start_i) _ _ hnd
    intro u
    rw [sum_match_cond]
    rw [Bool.and_eq_true, beq_iff_eq, beq_iff_eq, Prod.mk.injEq]

/-- An annotation whose single chain holds two mentions that resolve to the
same (sentence 0, token 0) address. -/
def c6_ann_dup : Annotation :=
  { sentence := [], corefChain := [⟨1, [0, 1], 0⟩],
    mentionsForCoref := fun _ => ⟨0, 0, "X"⟩ }

/-- An annotation whose single chain holds one mention at (sentence 0,
token 0). -/
def c6_ann_uniq : Annotation :=
  { sentence := [], corefChain := [⟨1, [0], 0⟩],
    mentionsForCoref := fun _ => ⟨0, 0, "X"⟩ }

/-- A single aligned pair whose source subject sits at (sentence 0, token 0). -/
def c6_match : ParseTreeMatch :=
  { src_sent_index := 0, sum_sent_index := 0, src_phrase := default,
    sum_phrase := default, match_rouge_score := 0 }

theorem claim_C6_counterexample :
    (annotate_src_counted c6_ann_dup [c6_match]).map (fun pn => pn.2) = [2] := rfl

theorem claim_C6_witness :
    ((chain_updates c6_ann_uniq).map (fun u => (u.2.1.sentNum, u.2.1.startIndex))).Nodup
    ∧ ((∀ pn ∈ annotate_src_counted c6_ann_uniq [c6_match], pn.2 ≤ 1)
      ∧ (∀ pn ∈ annotate_sum_counted c6_ann_uniq [c6_match], pn.2 ≤ 1)) :=
  ⟨by decide, claim_C6 c6_ann_uniq [c6_match] (by decide)⟩

/-- Spec-side helper: the concatenated phrase-pair lists of a document, one
extraction per sentence (empty for a childless root, matching the claim that
pair-free sentences contribute nothing). -/
def phrases_of_sentences : List Sentence → List PhraseDict
  | [] => []
  | s :: rest =>
    (match s.parseTree.child with
      | [] => []
      | c :: _ => recursive_np_vp_search c) ++ phrases_of_sentences rest

theorem extract_phrases_rooted :
    ∀ (sents : List Sentence) (i : Nat), (∀ s ∈ sents, s.parseTree.child ≠ []) →
      ∃ ids, extract_phrases sents i = some (phrases_of_sentences sents, ids) := by
  intro sents
  induction sents with
  | nil => intro i _; exact ⟨[], rfl⟩
  | cons s rest ih =>
    intro i hroot
    obtain ⟨ids, hids⟩ := ih (i + 1) (fun s2 hs2 => hroot s2 (List.mem_cons_of_mem _ hs2))
    have hs := hroot s (List.mem_cons_self _ _)
    rcases hc : s.parseTree.child with _ | ⟨c, cs⟩
    · exact absurd hc hs
    · refine ⟨List.replicate (recursive_np_vp_search c).length i ++ ids, ?_⟩
      rw [extract_phrases, get_np_vp, hc]
      simp only
      rw [hids]
      simp only [phrases_of_sentences, hc]

/-- A source document whose single sentence tree has no subject/predicate
split anywhere: its phrase-pair list is empty. -/
def c5_src_ann : Annotation :=
  { sentence := [{ parseTree := Tree.node "ROOT" [Tree.node "X" [Tree.node "w" []]],
                   token := ["w"] }],
    corefChain := [], mentionsForCoref := fun _ => ⟨0, 0, ""⟩ }

/-- A summary document whose single sentence yields one phrase pair. -/
def c5_sum_ann : Annotation :=
  { sentence := [{ parseTree := Tree.node "ROOT" [Tree.node "S" [georgeNP, drivingVP]],
                   token := ["George", "was", "driving"] }],
    corefChain := [], mentionsForCoref := fun _ => ⟨0, 0, ""⟩ }

theorem claim_C5_counterexample :
    recursive_np_vp_search (Tree.node "X" [Tree.node "w" []]) = []
    ∧ (run_detection (fun _ _ => (0 : ℚ)) c5_src_ann c5_sum_ann ["George was driving"] 0).1
        = none := by
  have h1 : rnvs (Tree.node "X" [Tree.node "w" []]) 0 = (none, 1) := rfl
  have hx : recursive_np_vp_search (Tree.node "X" [Tree.node "w" []]) = [] := by
    rw [recursive_np_vp_search]
    exact np_vp_chain_none h1
  refine ⟨hx, ?_⟩
  have hsum : extract_phrases c5_sum_ann.sentence 0 = some ([georgeDict], [0]) := by
    simp [c5_sum_ann, extract_phrases, get_np_vp, Tree.child, extract_george]
  have hsrc : extract_phrases c5_src_ann.sentence 0 = some ([], []) := by
    simp [c5_src_ann, extract_phrases, get_np_vp, Tree.child, hx]
  have hm : match_np_bo_vp (fun _ _ => (0 : ℚ)) c5_src_ann c5_sum_ann = none := by
    rw [match_np_bo_vp, hsum, hsrc]
    simp [align]
  simp only [run_detection, hm]

theorem claim_C9_witness :
    run_detection (fun _ _ => (0 : ℚ)) c5_sum_ann
        { sentence := [], corefChain := [], mentionsForCoref := fun _ => ⟨0, 0, ""⟩ }
        [] 0 = (some ⟨[], [], []⟩, [])
    ∧ (([] : List Nat).length = ([] : List Nat).length
      ∧ ([] : List Nat).length = ([] : List Message).length
      ∧ ((DetectionResult.mk [] [] []).error_detected = true ↔
          (DetectionResult.mk [] [] []).messages ≠ [])) := by
  have hext : extract_phrases c5_sum_ann.sentence 0 = some ([georgeDict], [0]) := by
    simp [c5_sum_ann, extract_phrases, get_np_vp, Tree.child, extract_george]
  have hm : match_np_bo_vp (fun _ _ => (0 : ℚ)) c5_sum_ann
      { sentence := [], corefChain := [], mentionsForCoref := fun _ => ⟨0, 0, ""⟩ }
      = some [] := by
    rw [match_np_bo_vp, hext]
    rfl
  have hrun : run_detection (fun _ _ => (0 : ℚ)) c5_sum_ann
      { sentence := [], corefChain := [], mentionsForCoref := fun _ => ⟨0, 0, ""⟩ }
      [] 0 = (some ⟨[], [], []⟩, []) := by
    simp only [run_detection, hm]
    rfl
  exact ⟨hrun, claim_C9 (fun _ _ => (0 : ℚ)) c5_sum_ann
    { sentence := [], corefChain := [], mentionsForCoref := fun _ => ⟨0, 0, ""⟩ }
    [] 0 ⟨[], [], []⟩ [] hrun⟩

theorem getD_of_lt {α : Type} (l : List α) (n : Nat) (d : α) (h : n < l.length) :
    l.getD n d = l[n] := by
  simp [List.getD_eq_getElem?_getD, List.getElem?_eq_getElem h]

theorem stableArgmax_eq_of_strict_max (l : List ℚ) (k : Nat) (hk : k < l.length)
    (hmax : ∀ i < l.length, i ≠ k → l.getD i 0 < l.getD k 0) : stableArgmax l = k := by
  have hnil : l ≠ [] := by
    intro he
    rw [he] at hk
    simp at hk
  by_contra hne2
  have h1 := stableArgmax_ge l (l.getD k 0) (getD_mem_of_lt l k hk)
  have h2 := hmax (stableArgmax l) (stableArgmax_lt_length l hnil) hne2
  linarith

/-- For identical source and summary phrase lists with pairwise-distinct
predicate strings, a similarity that is 1 on equal strings and below 1 on
distinct strings makes every summary column select its own row with score 1:
the aligner returns exactly the diagonal. -/
theorem align_identical_diag (score : String → String → ℚ) (P : List PhraseDict)
    (ids : List Nat) (hP : P ≠ [])
    (hrefl : ∀ s, score s s = 1)
    (hdisc : ∀ a b, a ≠ b → score a b < 1)
    (hdist : (P.map PhraseDict.VP_string).Nodup) :
    align score P ids P ids = some ((List.range P.length).map (fun j =>
      { src_sent_index := ids.getD j 0, sum_sent_index := ids.getD j 0,
        src_phrase := P.getD j default, sum_phrase := P.getD j default,
        match_rouge_score := 1 })) := by
  rw [align]
  rw [if_neg (by simp only [List.isEmpty_iff]; exact hP)]
  rw [Option.some.injEq]
  rw [← List.filterMap_eq_map]
  apply List.filterMap_congr
  intro j hj
  rw [List.mem_range] at hj
  simp only [Function.comp_apply]
  have hcol : ∀ i, i < P.length →
      (scoreColumn score P (P.getD j default)).getD i 0 =
        score (P.getD j default).VP_string (P.getD i default).VP_string := by
    intro i hi
    rw [scoreColumn]
    rw [getD_of_lt _ _ _ (by simpa using hi)]
    rw [List.getElem_map]
    rw [getD_of_lt _ _ _ hi]
  have hlen : (scoreColumn score P (P.getD j default)).length = P.length := by
    rw [scoreColumn, List.length_map]
  have hdiag : (scoreColumn score P (P.getD j default)).getD j 0 = 1 := by
    rw [hcol j hj]
    exact hrefl _
  have hb : stableArgmax (scoreColumn score P (P.getD j default)) = j := by
    apply stableArgmax_eq_of_strict_max _ j (by omega)
    intro i hi hij
    rw [hlen] at hi
    rw [hcol i hi, hcol j hj, hrefl]
    apply hdisc
    intro he
    apply hij
    have hib : i < (P.map PhraseDict.VP_string).length := by simpa using hi
    have hjb : j < (P.map PhraseDict.VP_string).length := by simpa using hj
    have hgi : (P.getD i default).VP_string = (P.map PhraseDict.VP_string)[i] := by
      rw [List.getElem_map, getD_of_lt _ _ _ hi]
    have hgj : (P.getD j default).VP_string = (P.map PhraseDict.VP_string)[j] := by
      rw [List.getElem_map, getD_of_lt _ _ _ hj]
    rw [hgi, hgj] at he
    exact (hdist.getElem_inj_iff.mp he.symm)
  simp only [hb, hdiag]
  rw [if_pos (by norm_num)]

/-- The address at which the source-side coupling loop matches a pair. -/
def src_addr (p : ParseTreeMatch) : Nat × Nat := (p.src_sent_index, p.src_phrase.NP_start_i)

/-- The address at which the summary-side coupling loop matches a pair. -/
def sum_addr (p : ParseTreeMatch) : Nat × Nat := (p.sum_sent_index, p.sum_phrase.NP_start_i)

/-- The chain id held after all coupling updates have run against a fixed
address, starting from `d`: the last matching update wins. -/
def chain_result_or (us : List (Nat × Mention × String)) (addr : Nat × Nat)
    (d : Option Nat) : Option Nat :=
  us.foldl (fun acc u =>
    if u.2.1.sentNum == addr.1 && u.2.1.startIndex == addr.2 then some u.1 else acc) d

theorem foldmap_eq {υ π : Type} (f : υ → π → π) :
    ∀ (us : List υ) (start : List π),
      us.foldl (fun ms u => ms.map (f u)) start
        = start.map (fun p => us.foldl (fun p u => f u p) p) := by
  intro us
  induction us with
  | nil => intro start; simp
  | cons u us ih =>
    intro start
    rw [List.foldl_cons, ih, List.map_map]
    rfl

theorem annotate_src_eq (ann : Annotation) (ms : List ParseTreeMatch) :
    annotate_src ann ms =
      ms.map (fun p => (chain_updates ann).foldl (fun p u => apply_src_update u p) p) :=
  foldmap_eq apply_src_update (chain_updates ann) ms

theorem annotate_sum_eq (ann : Annotation) (ms : List ParseTreeMatch) :
    annotate_sum ann ms =
      ms.map (fun p => (chain_updates ann).foldl (fun p u => apply_sum_update u p) p) :=
  foldmap_eq apply_sum_update (chain_updates ann) ms

theorem apply_src_update_fields (u : Nat × Mention × String) (p : ParseTreeMatch) :
    (apply_src_update u p).sum_chain_id = p.sum_chain_id
    ∧ (apply_src_update u p).src_sent_index = p.src_sent_index
    ∧ (apply_src_update u p).src_phrase = p.src_phrase
    ∧ (apply_src_update u p).sum_sent_index = p.sum_sent_index
    ∧ (apply_src_update u p).sum_phrase = p.sum_phrase := by
  rw [apply_src_update]
  split <;> exact ⟨rfl, rfl, rfl, rfl, rfl⟩

theorem apply_sum_update_fields (u : Nat × Mention × String) (p : ParseTreeMatch) :
    (apply_sum_update u p).src_chain_id = p.src_chain_id
    ∧ (apply_sum_update u p).src_sent_index = p.src_sent_index
    ∧ (apply_sum_update u p).src_phrase = p.src_phrase
    ∧ (apply_sum_update u p).sum_sent_index = p.sum_sent_index
    ∧ (apply_sum_update u p).sum_phrase = p.sum_phrase := by
  rw [apply_sum_update]
  split <;> exact ⟨rfl, rfl, rfl, rfl, rfl⟩

theorem src_fold_fields :
    ∀ (us : List (Nat × Mention × String)) (p : ParseTreeMatch),
      (us.foldl (fun p u => apply_src_update u p) p).sum_chain_id = p.sum_chain_id
      ∧ (us.foldl (fun p u => apply_src_update u p) p).sum_sent_index = p.sum_sent_index
      ∧ (us.foldl (fun p u => apply_src_update u p) p).sum_phrase = p.sum_phrase := by
  intro us
  induction us with
  | nil => intro p; exact ⟨rfl, rfl, rfl⟩
  | cons u us ih =>
    intro p
    rw [List.foldl_cons]
    obtain ⟨h1, h2, h3⟩ := ih (apply_src_update u p)
    obtain ⟨g1, g2, g3, g4, g5⟩ := apply_src_update_fields u p
    exact ⟨h1.trans g1, h2.trans g4, h3.trans g5⟩

theorem sum_fold_fields :
    ∀ (us : List (Nat × Mention × String)) (p : ParseTreeMatch),
      (us.foldl (fun p u => apply_sum_update u p) p).src_chain_id = p.src_chain_id
      ∧ (us.foldl (fun p u => apply_sum_update u p) p).src_sent_index = p.src_sent_index
      ∧ (us.foldl (fun p u => apply_sum_update u p) p).src_phrase = p.src_phrase := by
  intro us
  induction us with
  | nil => intro p; exact ⟨rfl, rfl, rfl⟩
  | cons u us ih =>
    intro p
    rw [List.foldl_cons]
    obtain ⟨h1, h2, h3⟩ := ih (apply_sum_update u p)
    obtain ⟨g1, g2, g3, g4, g5⟩ := apply_sum_update_fields u p
    exact ⟨h1.trans g1, h2.trans g2, h3.trans g3⟩

theorem src_fold_chain_id :
    ∀ (us : List (Nat × Mention × String)) (p : ParseTreeMatch),
      (us.foldl (fun p u => apply_src_update u p) p).src_chain_id =
        chain_result_or us (src_addr p) p.src_chain_id := by
  intro us
  induction us with
  | nil => intro p; rfl
  | cons u us ih =>
    intro p
    rw [List.foldl_cons]
    rw [ih (apply_src_update u p)]
    obtain ⟨g1, g2, g3, g4, g5⟩ := apply_src_update_fields u p
    have haddr : src_addr (apply_src_update u p) = src_addr p := by
      rw [src_addr, src_addr, g2, g3]
    rw [haddr]
    conv_rhs => rw [chain_result_or, List.foldl_cons]
    by_cases hc : src_match_cond u p
    · have hid : (apply_src_update u p).src_chain_id = some u.1 := by
        rw [apply_src_update, if_pos hc]
      rw [hid]
      have hcond : (u.2.1.sentNum == (src_addr p).1 && u.2.1.startIndex == (src_addr p).2)
          = true := hc
      rw [hcond]
      rfl
    · have hid : (apply_src_update u p).src_chain_id = p.src_chain_id := by
        rw [apply_src_update, if_neg hc]
      rw [hid]
      have hcond : (u.2.1.sentNum == (src_addr p).1 && u.2.1.startIndex == (src_addr p).2)
          = false := by
        rw [Bool.eq_false_iff]
        exact hc
      rw [hcond]
      rfl

theorem sum_fold_chain_id :
    ∀ (us : List (Nat × Mention × String)) (p : ParseTreeMatch),
      (us.foldl (fun p u => apply_sum_update u p) p).sum_chain_id =
        chain_result_or us (sum_addr p) p.sum_chain_id := by
  intro us
  induction us with
  | nil => intro p; rfl
  | cons u us ih =>
    intro p
    rw [List.foldl_cons]
    rw [ih (apply_sum_update u p)]
    obtain ⟨g1, g2, g3, g4, g5⟩ := apply_sum_update_fields u p
    have haddr : sum_addr (apply_sum_update u p) = sum_addr p := by
      rw [sum_addr, sum_addr, g4, g5]
    rw [haddr]
    conv_rhs => rw [chain_result_or, List.foldl_cons]
    by_cases hc : sum_match_cond u p
    · have hid : (apply_sum_update u p).sum_chain_id = some u.1 := by
        rw [apply_sum_update, if_pos hc]
      rw [hid]
      have hcond : (u.2.1.sentNum == (sum_addr p).1 && u.2.1.startIndex == (sum_addr p).2)
          = true := hc
      rw [hcond]
      rfl
    · have hid : (apply_sum_update u p).sum_chain_id = p.sum_chain_id := by
        rw [apply_sum_update, if_neg hc]
      rw [hid]
      have hcond : (u.2.1.sentNum == (sum_addr p).1 && u.2.1.startIndex == (sum_addr p).2)
          = false := by
        rw [Bool.eq_false_iff]
        exact hc
      rw [hcond]
      rfl

theorem zip_self_fst_eq_snd :
    ∀ (L : List (Option Nat)) (p : Option Nat × Option Nat), p ∈ L.zip L → p.1 = p.2 := by
  intro L
  induction L with
  | nil => intro p hp; cases hp
  | cons a rest ih =>
    intro p hp
    rw [List.zip_cons_cons] at hp
    rcases List.mem_cons.mp hp with h1 | h2
    · rw [h1]
    · exact ih p h2

theorem cclo_go_self :
    ∀ (pl : List (Option Nat × Option Nat)), (∀ p ∈ pl, p.1 = p.2) →
      ∀ (i : Nat) (m : List (Nat × Nat)),
        (∀ x z, List.lookup x m = some z → z = x) → cclo_go pl i m = [] := by
  intro pl
  induction pl with
  | nil => intro _ i m _; rfl
  | cons p rest ih =>
    intro hdiag i m hm
    obtain ⟨a, b⟩ := p
    have hab : a = b := hdiag (a, b) (List.mem_cons_self _ _)
    have hrest : ∀ q ∈ rest, q.1 = q.2 := fun q hq => hdiag q (List.mem_cons_of_mem _ hq)
    rcases a with _ | x
    · rw [← hab]
      exact ih hrest (i + 1) m hm
    · rw [← hab]
      rcases hl : List.lookup x m with _ | z
      · have hstep : cclo_go ((some x, some x) :: rest) i m =
            cclo_go rest (i + 1) ((x, x) :: m) := by
          simp only [cclo_go, hl]
        rw [hstep]
        apply ih hrest (i + 1)
        intro x2 z2 h2
        by_cases hx : x2 = x
        · rw [hx, List.lookup_cons_self, Option.some.injEq] at h2
          rw [← h2, hx]
        · rw [lookup_cons_ne _ hx] at h2
          exact hm x2 z2 h2
      · have hz : z = x := hm x z hl
        have hstep : cclo_go ((some x, some x) :: rest) i m = cclo_go rest (i + 1) m := by
          simp only [cclo_go, hl]
          rw [if_neg (by simp [hz])]
        rw [hstep]
        exact ih hrest (i + 1) m hm

theorem check_self (L : List (Option Nat)) : check_chain_link_oneway L L = [] := by
  rw [check_chain_link_oneway]
  apply cclo_go_self _ (zip_self_fst_eq_snd L) 0
  intro x z h
  cases h

/-- The extraction invariant underlying the no-raise argument: for rooted
sentence trees the sentence-index list runs parallel to the phrase list and
every recorded index is below the sentence count. -/
theorem extract_phrases_rooted_bounds :
    ∀ (sents : List Sentence) (i : Nat), (∀ s ∈ sents, s.parseTree.child ≠ []) →
      ∃ ids, extract_phrases sents i = some (phrases_of_sentences sents, ids)
        ∧ ids.length = (phrases_of_sentences sents).length
        ∧ ∀ id ∈ ids, id < i + sents.length := by
  intro sents
  induction sents with
  | nil =>
    intro i _
    exact ⟨[], rfl, rfl, fun id hid => absurd hid (List.not_mem_nil id)⟩
  | cons s rest ih =>
    intro i hroot
    obtain ⟨ids, hids, hlen, hbd⟩ :=
      ih (i + 1) (fun s2 hs2 => hroot s2 (List.mem_cons_of_mem _ hs2))
    have hs := hroot s (List.mem_cons_self _ _)
    rcases hc : s.parseTree.child with _ | ⟨c, cs⟩
    · exact absurd hc hs
    · refine ⟨List.replicate (recursive_np_vp_search c).length i ++ ids, ?_, ?_, ?_⟩
      · rw [extract_phrases, get_np_vp, hc]
        simp only
        rw [hids]
        simp only [phrases_of_sentences, hc]
      · simp only [phrases_of_sentences, hc, List.length_append, List.length_replicate, hlen]
      · intro id hid
        rw [List.length_cons]
        rcases List.mem_append.mp hid with hmem | hmem
        · have := List.eq_of_mem_replicate hmem
          omega
        · have := hbd id hmem
          omega

theorem src_fold_src_sent :
    ∀ (us : List (Nat × Mention × String)) (p : ParseTreeMatch),
      (us.foldl (fun p u => apply_src_update u p) p).src_sent_index = p.src_sent_index := by
  intro us
  induction us with
  | nil => intro p; rfl
  | cons u us ih =>
    intro p
    rw [List.foldl_cons, ih (apply_src_update u p), (apply_src_update_fields u p).2.1]

theorem sum_fold_sum_sent :
    ∀ (us : List (Nat × Mention × String)) (p : ParseTreeMatch),
      (us.foldl (fun p u => apply_sum_update u p) p).sum_sent_index = p.sum_sent_index := by
  intro us
  induction us with
  | nil => intro p; rfl
  | cons u us ih =>
    intro p
    rw [List.foldl_cons, ih (apply_sum_update u p), (apply_sum_update_fields u p).2.2.2.1]

/-- The checker only ever reports indices below the zipped list length, so the
`parse_tree_matches[i_error]` lookups of the reporting loops stay in bounds. -/
theorem check_mem_lt (A B : List (Option Nat)) (k : Nat)
    (hk : k ∈ check_chain_link_oneway A B) : k < (A.zip B).length := by
  rw [check_mem_iff] at hk
  obtain ⟨x, y, z, j, hget, _⟩ := hk
  by_contra hge
  rw [List.getElem?_eq_none (by omega)] at hget
  cases hget

/-- Every aligned pair records a source sentence index drawn from the source
ids list and a summary sentence index drawn from the summary ids list,
provided the ids lists run parallel to the phrase lists. -/
theorem align_mem_ids (score : String → String → ℚ) (src_phrases : List PhraseDict)
    (src_sent_ids : List Nat) (sum_phrases : List PhraseDict) (sum_sent_ids : List Nat)
    (out : List ParseTreeMatch)
    (hids2 : src_sent_ids.length = src_phrases.length)
    (hids1 : sum_sent_ids.length = sum_phrases.length)
    (h : align score src_phrases src_sent_ids sum_phrases sum_sent_ids = some out) :
    ∀ m ∈ out, m.src_sent_index ∈ src_sent_ids ∧ m.sum_sent_index ∈ sum_sent_ids := by
  intro m hm
  have hne : src_phrases ≠ [] := by
    intro he
    rw [he] at h
    simp [align] at h
  rw [align, if_neg (by simp only [List.isEmpty_iff]; exact hne)] at h
  rw [Option.some.injEq] at h
  rw [← h] at hm
  rw [List.mem_filterMap] at hm
  obtain ⟨j, hj, hf⟩ := hm
  rw [List.mem_range] at hj
  dsimp only at hf
  split at hf
  · rw [Option.some.injEq] at hf
    subst hf
    have hcolne : scoreColumn score src_phrases (sum_phrases.getD j default) ≠ [] := by
      rw [scoreColumn]
      simp only [ne_eq, List.map_eq_nil_iff]
      exact hne
    have hlencol : (scoreColumn score src_phrases (sum_phrases.getD j default)).length
        = src_phrases.length := by
      rw [scoreColumn, List.length_map]
    have h0 := stableArgmax_lt_length _ hcolne
    have hblt : stableArgmax (scoreColumn score src_phrases (sum_phrases.getD j default)) <
        src_sent_ids.length := by omega
    constructor
    · rw [getD_of_lt _ _ _ hblt]
      exact List.getElem_mem _
    · have hjlt : j < sum_sent_ids.length := by rw [hids1]; exact hj
      rw [getD_of_lt _ _ _ hjlt]
      exact List.getElem_mem _
  · cases hf

/-- The f-string lookups succeed for a pair whose sentence indices are in
bounds for the summary list and the source annotation. -/
theorem make_message_isSome (dir : Bool) (summary : List String) (src_ann : Annotation)
    (pm : ParseTreeMatch) (h1 : pm.sum_sent_index < summary.length)
    (h2 : pm.src_sent_index < src_ann.sentence.length) :
    (make_message dir summary src_ann pm).isSome = true := by
  rw [make_message, List.getElem?_eq_getElem h1, List.getElem?_eq_getElem h2]
  rfl

/-- A reporting loop whose every message lookup succeeds does not raise. -/
theorem build_findings_isSome (summary : List String) (src_ann : Annotation)
    (ms : List ParseTreeMatch) (dir : Bool) :
    ∀ idxs : List Nat,
      (∀ i ∈ idxs, (make_message dir summary src_ann (ms.getD i defaultPM)).isSome = true) →
      (build_findings summary src_ann ms dir idxs).isSome = true := by
  intro idxs
  induction idxs with
  | nil => intro _; rfl
  | cons i rest ih =>
    intro h
    rcases hmm : make_message dir summary src_ann (ms.getD i defaultPM) with _ | msg
    · have hcontra := h i (List.mem_cons_self _ _)
      rw [hmm] at hcontra
      cases hcontra
    · rcases hb : build_findings summary src_ann ms dir rest with _ | fs
      · have hcontra := ih (fun j hj => h j (List.mem_cons_of_mem _ hj))
        rw [hb] at hcontra
        cases hcontra
      · simp only [build_findings, hmm, hb]
        rfl

/-- **C5** (amended): a sentence tree without a subject/predicate split yields
an empty phrase-pair list rather than an exception, and the pipeline never
raises provided every sentence tree has a rooted child, the source document
produced at least one phrase pair, and the annotated summary has no more
sentences than the caller-supplied summary list.  (The original claim - no
raise for arbitrary inputs - fails twice: with no source phrase pairs
`np.argmax` raises over the empty reduction axis, the 0x0 matrix included,
and with more annotated summary sentences than summary strings the message
f-string raises `IndexError` at `summary[...]`; see the counterexample.) -/
theorem claim_C5 (score : String → String → ℚ) (src_ann sum_ann : Annotation)
    (summary : List String) (lvl : Nat)
    (hsrc : ∀ s ∈ src_ann.sentence, s.parseTree.child ≠ [])
    (hsum : ∀ s ∈ sum_ann.sentence, s.parseTree.child ≠ [])
    (hne : phrases_of_sentences src_ann.sentence ≠ [])
    (hlen : sum_ann.sentence.length ≤ summary.length) :
    ((run_detection score src_ann sum_ann summary lvl).1).isSome = true
    ∧ (∀ t : Tree, has_np_vp_split t = false → recursive_np_vp_search t = []) := by
  constructor
  · obtain ⟨ids1, h1, hlen1, hbd1⟩ := extract_phrases_rooted_bounds sum_ann.sentence 0 hsum
    obtain ⟨ids2, h2, hlen2, hbd2⟩ := extract_phrases_rooted_bounds src_ann.sentence 0 hsrc
    rcases ha : align score (phrases_of_sentences src_ann.sentence) ids2
        (phrases_of_sentences sum_ann.sentence) ids1 with _ | ms0
    · exfalso
      rw [align, if_neg (by simp only [List.isEmpty_iff]; exact hne)] at ha
      cases ha
    · have hm : match_np_bo_vp score src_ann sum_ann = some ms0 := by
        rw [match_np_bo_vp, h1, h2]
        exact ha
      have hbound := align_mem_ids score _ ids2 _ ids1 ms0 hlen2 hlen1 ha
      set ms := annotate_sum sum_ann (annotate_src src_ann ms0) with hms
      have hbound2 : ∀ p ∈ ms, p.src_sent_index < src_ann.sentence.length
          ∧ p.sum_sent_index < summary.length := by
        intro p hp
        rw [hms, annotate_src_eq, annotate_sum_eq, List.map_map, List.mem_map] at hp
        obtain ⟨q, hq, hpq⟩ := hp
        obtain ⟨hqsrc, hqsum⟩ := hbound q hq
        have hsrcbd : q.src_sent_index < src_ann.sentence.length := by
          have := hbd2 _ hqsrc
          omega
        have hsumbd : q.sum_sent_index < sum_ann.sentence.length := by
          have := hbd1 _ hqsum
          omega
        rw [← hpq]
        simp only [Function.comp_apply]
        constructor
        · rw [(sum_fold_fields _ _).2.1, src_fold_src_sent]
          exact hsrcbd
        · rw [sum_fold_sum_sent, (src_fold_fields _ _).2.1]
          omega
      have hmm : ∀ (dir : Bool) (i : Nat), i < ms.length →
          (make_message dir summary src_ann (ms.getD i defaultPM)).isSome = true := by
        intro dir i hi
        rw [getD_of_lt _ _ _ hi]
        obtain ⟨hb1, hb2⟩ := hbound2 _ (List.getElem_mem _)
        exact make_message_isSome dir summary src_ann _ hb2 hb1
      have hfind : ∀ (dir : Bool) (A B : List (Option Nat)), A.length = ms.length →
          B.length = ms.length →
          (build_findings summary src_ann ms dir (check_chain_link_oneway A B)).isSome
            = true := by
        intro dir A B hA hB
        apply build_findings_isSome
        intro i hi
        have hlt := check_mem_lt A B i hi
        rw [List.length_zip, hA, hB, Nat.min_self] at hlt
        exact hmm dir i hlt
      have hc1 := hfind true (ms.map (fun m => m.src_chain_id))
        (ms.map (fun m => m.sum_chain_id)) (List.length_map _ _) (List.length_map _ _)
      have hc2 := hfind false (ms.map (fun m => m.sum_chain_id))
        (ms.map (fun m => m.src_chain_id)) (List.length_map _ _) (List.length_map _ _)
      have hcf : (collect_findings summary src_ann ms).isSome = true := by
        rw [collect_findings]
        rcases hx1 : build_findings summary src_ann ms true
            (check_chain_link_oneway (ms.map (fun m => m.src_chain_id))
              (ms.map (fun m => m.sum_chain_id))) with _ | f1
        · rw [hx1] at hc1; cases hc1
        rcases hx2 : build_findings summary src_ann ms false
            (check_chain_link_oneway (ms.map (fun m => m.sum_chain_id))
              (ms.map (fun m => m.src_chain_id))) with _ | f2
        · rw [hx2] at hc2; cases hc2
        rw [hx1, hx2]
        rfl
      rcases hcc : collect_findings summary src_ann ms with _ | fs
      · rw [hcc] at hcf; cases hcf
      · simp only [run_detection, hm, ← hms, hcc]
        rfl
  · exact no_split_extract_empty

theorem claim_C5_witness :
    (∀ s ∈ c5_sum_ann.sentence, s.parseTree.child ≠ [])
    ∧ phrases_of_sentences c5_sum_ann.sentence ≠ []
    ∧ c5_sum_ann.sentence.length ≤ (["x"] : List String).length
    ∧ (((run_detection (fun _ _ => (1 : ℚ)) c5_sum_ann c5_sum_ann ["x"] 0).1).isSome = true
      ∧ (∀ t : Tree, has_np_vp_split t = false → recursive_np_vp_search t = [])) := by
  have hroot : ∀ s ∈ c5_sum_ann.sentence, s.parseTree.child ≠ [] := by
    intro s hs
    rw [c5_sum_ann] at hs
    simp only [List.mem_singleton] at hs
    rw [hs]
    simp [Tree.child]
  have hph : phrases_of_sentences c5_sum_ann.sentence = [georgeDict] := by
    simp [c5_sum_ann, phrases_of_sentences, Tree.child, extract_george]
  have hne : phrases_of_sentences c5_sum_ann.sentence ≠ [] := by
    rw [hph]
    exact List.cons_ne_nil _ _
  have hlen : c5_sum_ann.sentence.length ≤ (["x"] : List String).length := by
    simp [c5_sum_ann]
  exact ⟨hroot, hne, hlen,
    claim_C5 (fun _ _ => (1 : ℚ)) c5_sum_ann c5_sum_ann ["x"] 0 hroot hroot hne hlen⟩

/-- **C3** (amended): on identical source and summary annotations, every
`run_detection` call that returns yields zero findings, provided the
similarity is 1 exactly on equal predicate strings, below 1 on distinct ones,
and the extracted phrase pairs have pairwise-distinct predicate strings (then
every summary phrase pair aligns to itself with score 1 and the two chain-id
sequences coincide).  When the annotation produced no phrase pairs at all -
rooted but split-free trees, say - the run does not return: `np.argmax`
raises over the 0x0 matrix, and the hypothesis on the result excludes it.
(The original unconditional claim fails when two phrase pairs share a
predicate string: the stable argmax then maps both summary pairs to the first
source row, and differing chains yield a finding - see the counterexample.) -/
theorem claim_C3 (score : String → String → ℚ) (ann : Annotation) (summary : List String)
    (lvl : Nat) (res : DetectionResult) (log : List LogEntry)
    (hrefl : ∀ s, score s s = 1)
    (hdisc : ∀ a b, a ≠ b → score a b < 1)
    (hroot : ∀ s ∈ ann.sentence, s.parseTree.child ≠ [])
    (hdist : ((phrases_of_sentences ann.sentence).map PhraseDict.VP_string).Nodup)
    (h : run_detection score ann ann summary lvl = (some res, log)) :
    res.src_sent_indices = [] ∧ res.sum_sent_indices = [] ∧ res.messages = [] := by
  obtain ⟨ids, hids⟩ := extract_phrases_rooted ann.sentence 0 hroot
  by_cases hP : phrases_of_sentences ann.sentence = []
  · have hm : match_np_bo_vp score ann ann = none := by
      rw [match_np_bo_vp, hids, hP]
      rfl
    simp only [run_detection, hm] at h
    exact absurd (congrArg Prod.fst h) (by simp)
  have hm : match_np_bo_vp score ann ann =
      some ((List.range (phrases_of_sentences ann.sentence).length).map (fun j =>
        { src_sent_index := ids.getD j 0, sum_sent_index := ids.getD j 0,
          src_phrase := (phrases_of_sentences ann.sentence).getD j default,
          sum_phrase := (phrases_of_sentences ann.sentence).getD j default,
          match_rouge_score := 1 })) := by
    rw [match_np_bo_vp, hids]
    exact align_identical_diag score _ ids hP hrefl hdisc hdist
  set dm := ((List.range (phrases_of_sentences ann.sentence).length).map (fun j =>
    ({ src_sent_index := ids.getD j 0, sum_sent_index := ids.getD j 0,
       src_phrase := (phrases_of_sentences ann.sentence).getD j default,
       sum_phrase := (phrases_of_sentences ann.sentence).getD j default,
       match_rouge_score := 1 } : ParseTreeMatch))) with hdm
  have hkey : ∀ q ∈ annotate_sum ann (annotate_src ann dm),
      q.src_chain_id = q.sum_chain_id := by
    intro q hq
    rw [annotate_src_eq, annotate_sum_eq, List.map_map] at hq
    rw [List.mem_map] at hq
    obtain ⟨e, he, hqe⟩ := hq
    have he2 : e.src_chain_id = none ∧ e.sum_chain_id = none ∧ src_addr e = sum_addr e := by
      rw [hdm, List.mem_map] at he
      obtain ⟨j, hj, hje⟩ := he
      rw [← hje]
      exact ⟨rfl, rfl, rfl⟩
    rw [← hqe]
    simp only [Function.comp_apply]
    rw [(sum_fold_fields _ _).1]
    rw [src_fold_chain_id]
    rw [sum_fold_chain_id]
    rw [(src_fold_fields _ _).1]
    have hsa : sum_addr ((chain_updates ann).foldl (fun p u => apply_src_update u p) e)
        = sum_addr e := by
      rw [sum_addr, sum_addr, (src_fold_fields _ _).2.1, (src_fold_fields _ _).2.2]
    rw [hsa, he2.1, he2.2.1, he2.2.2]
  have hids_eq : (annotate_sum ann (annotate_src ann dm)).map (fun m => m.src_chain_id)
      = (annotate_sum ann (annotate_src ann dm)).map (fun m => m.sum_chain_id) :=
    List.map_congr_left (fun q hq => hkey q hq)
  have hch1 : check_chain_link_oneway
      ((annotate_sum ann (annotate_src ann dm)).map (fun m => m.src_chain_id))
      ((annotate_sum ann (annotate_src ann dm)).map (fun m => m.sum_chain_id)) = [] := by
    rw [hids_eq]
    exact check_self _
  have hch2 : check_chain_link_oneway
      ((annotate_sum ann (annotate_src ann dm)).map (fun m => m.sum_chain_id))
      ((annotate_sum ann (annotate_src ann dm)).map (fun m => m.src_chain_id)) = [] := by
    rw [hids_eq]
    exact check_self _
  have hcf : collect_findings summary ann (annotate_sum ann (annotate_src ann dm))
      = some [] := by
    rw [collect_findings, hch1, hch2]
    rfl
  simp only [run_detection, hm, ← hdm, hcf] at h
  have h1 := congrArg Prod.fst h
  simp only at h1
  rw [Option.some.injEq] at h1
  rw [← h1]
  exact ⟨rfl, rfl, rfl⟩

/-- A similarity in the image of rouge-2 F on these inputs: 1 on identical
predicate strings, 0 otherwise. -/
def c3_score : String → String → ℚ := fun a b => if a = b then 1 else 0

/-- Two sentences with distinct subjects (in distinct coreference chains) but
literally identical predicates; used as both source and summary. -/
def c3_ann : Annotation :=
  { sentence := [
      { parseTree := Tree.node "ROOT" [Tree.node "S" [georgeNP, drivingVP]],
        token := ["George", "was", "driving"] },
      { parseTree := Tree.node "ROOT" [Tree.node "S" [michaelNP, drivingVP]],
        token := ["Michael", "was", "driving"] }],
    corefChain := [⟨1, [0], 0⟩, ⟨2, [1], 0⟩],
    mentionsForCoref := fun mid =>
      if mid = 0 then ⟨0, 0, "George"⟩ else ⟨1, 0, "Michael"⟩ }

/-- The first aligned pair of the counterexample run. -/
def c3_m0 : ParseTreeMatch :=
  { src_sent_index := 0, sum_sent_index := 0, src_phrase := georgeDict,
    sum_phrase := georgeDict, match_rouge_score := 1 }

/-- The second aligned pair: the stable argmax maps the Michael summary phrase
to the George source row because the predicate strings tie at score 1. -/
def c3_m1 : ParseTreeMatch :=
  { src_sent_index := 0, sum_sent_index := 1, src_phrase := georgeDict,
    sum_phrase := michaelDict, match_rouge_score := 1 }

theorem claim_C3_counterexample :
    ((run_detection c3_score c3_ann c3_ann ["s0", "s1"] 0).1.map
      (fun r => r.messages.length)) = some 1 := by
  have hext : extract_phrases c3_ann.sentence 0 =
      some ([georgeDict, michaelDict], [0, 1]) := by
    simp [c3_ann, extract_phrases, get_np_vp, Tree.child, extract_george, extract_michael]
  have halign : align c3_score [georgeDict, michaelDict] [0, 1]
      [georgeDict, michaelDict] [0, 1] = some [c3_m0, c3_m1] := by
    norm_num [align, scoreColumn, stableArgmax, c3_score, georgeDict, michaelDict,
      c3_m0, c3_m1, List.range_succ, List.filterMap]
  have hm : match_np_bo_vp c3_score c3_ann c3_ann = some [c3_m0, c3_m1] := by
    rw [match_np_bo_vp, hext]
    exact halign
  simp only [run_detection, hm]
  rfl

theorem claim_C3_witness :
    (∀ s : String, c3_score s s = 1)
    ∧ (∀ a b : String, a ≠ b → c3_score a b < 1)
    ∧ (∀ s ∈ c5_sum_ann.sentence, s.parseTree.child ≠ [])
    ∧ ((phrases_of_sentences c5_sum_ann.sentence).map PhraseDict.VP_string).Nodup
    ∧ run_detection c3_score c5_sum_ann c5_sum_ann ["x"] 0 = (some ⟨[], [], []⟩, [])
    ∧ ((DetectionResult.mk [] [] []).src_sent_indices = []
      ∧ (DetectionResult.mk [] [] []).sum_sent_indices = []
      ∧ (DetectionResult.mk [] [] []).messages = []) := by
  have hrefl : ∀ s : String, c3_score s s = 1 := by
    intro s
    simp [c3_score]
  have hdisc : ∀ a b : String, a ≠ b → c3_score a b < 1 := by
    intro a b hab
    rw [c3_score]
    simp only [if_neg hab]
    norm_num
  have hroot : ∀ s ∈ c5_sum_ann.sentence, s.parseTree.child ≠ [] := by
    intro s hs
    rw [c5_sum_ann] at hs
    simp only [List.mem_singleton] at hs
    rw [hs]
    simp [Tree.child]
  have hdist : ((phrases_of_sentences c5_sum_ann.sentence).map PhraseDict.VP_string).Nodup := by
    simp [c5_sum_ann, phrases_of_sentences, Tree.child, extract_george]
  have hext : extract_phrases c5_sum_ann.sentence 0 = some ([georgeDict], [0]) := by
    simp [c5_sum_ann, extract_phrases, get_np_vp, Tree.child, extract_george]
  have halign : align c3_score [georgeDict] [0] [georgeDict] [0] =
      some [{ src_sent_index := 0, sum_sent_index := 0, src_phrase := georgeDict,
              sum_phrase := georgeDict, match_rouge_score := 1 }] := by
    norm_num [align, scoreColumn, stableArgmax, c3_score, georgeDict, List.range_succ,
      List.filterMap]
  have hm : match_np_bo_vp c3_score c5_sum_ann c5_sum_ann =
      some [{ src_sent_index := 0, sum_sent_index := 0, src_phrase := georgeDict,
              sum_phrase := georgeDict, match_rouge_score := 1 }] := by
    rw [match_np_bo_vp, hext]
    exact halign
  have hrun : run_detection c3_score c5_sum_ann c5_sum_ann ["x"] 0 =
      (some ⟨[], [], []⟩, []) := by
    simp only [run_detection, hm]
    rfl
  exact ⟨hrefl, hdisc, hroot, hdist, hrun,
    claim_C3 c3_score c5_sum_ann ["x"] 0 ⟨[], [], []⟩ [] hrefl hdisc hroot hdist hrun⟩

end RefErr
